import Mathlib

/-!
# LRU cache with time-based expiration (`internal/cache`)

A shallow embedding of `internal/cache/cache.go` and `internal/cache/gc.go`.

Modelling conventions.

* Keys and values (`interface{}` in the source) are type parameters `K` and `V`;
  keys are comparable (`DecidableEq K`), values are never inspected.
* `time.Duration`, `int`, `int64` and clock readings are `Int`; the one place where
  a 64-bit result is produced from a sum (`UnixNano` of `now + ttl`) wraps
  explicitly through `wrapInt64`.
* A `*list.Element` is a pair of an address and the `Items` record it holds.  The
  record of an element is never reassigned by the source, so the pair determines
  what a dereference yields; identity of nodes is decided on the address alone.
* `container/list.List` is the front-to-back sequence of its elements.
* A Go map is an association list without repeated keys; `c.items == nil` is kept
  in the flag `itemsNil` (reads of a nil map behave as reads of the empty map, an
  assignment into it panics).
* A run-time panic (nil dereference, assignment into a nil map) is `none`.
* The mutex is not modelled: every method is one atomic step.
* Log output is not modelled.
-/

set_option linter.unusedSectionVars false
set_option linter.dupNamespace false

namespace LRU

/-- The record stored in every list node (`type Items struct`). -/
structure Items (K V : Type) where
  Key : K
  Value : V
  Created : Int
  Expiration : Int
deriving DecidableEq, Repr

/-- A `*list.Element`: the address of the node and the record it carries. -/
structure Element (K V : Type) where
  addr : Nat
  Value : Items K V
deriving DecidableEq, Repr

/-- The `Cache` struct.  `nextAddr` is the allocator: the address the next
`PushFront` will hand out. -/
structure Cache (K V : Type) where
  items : List (K × Element K V)
  itemsNil : Bool
  capacity : Int
  evictList : List (Element K V)
  defaultExpiration : Int
  cleanupInterval : Int
  nextAddr : Nat
deriving DecidableEq, Repr

section Defs

variable {K V : Type} [DecidableEq K]

/-- Map read `m[k]` with the comma-ok form: `none` when the key is absent
(the source then sees a nil `*list.Element`). -/
def mapGet : List (K × Element K V) → K → Option (Element K V)
  | [], _ => none
  | (k', e) :: rest, k => if k' = k then some e else mapGet rest k

/-- The builtin `delete(m, k)`. -/
def mapDelete (m : List (K × Element K V)) (k : K) : List (K × Element K V) :=
  m.filter (fun p => decide (p.1 ≠ k))

/-- Map assignment `m[k] = e` on an allocated map. -/
def mapSet (m : List (K × Element K V)) (k : K) (e : Element K V) :
    List (K × Element K V) :=
  (k, e) :: mapDelete m k

/-- Method `(*List).Remove(e)` for a non-nil `e`: unlinks the node with the address of
`e` when it is in the list, and does nothing otherwise. -/
def listRemove (l : List (Element K V)) (e : Element K V) : List (Element K V) :=
  l.filter (fun x => decide (x.addr ≠ e.addr))

/-- Method `(*List).MoveToFront(e)` for a non-nil `e`: nothing happens when the node is
not in the list or is already the first one; otherwise it is unlinked and linked
in again at the front. -/
def moveToFront (l : List (Element K V)) (e : Element K V) : List (Element K V) :=
  if e.addr ∈ l.map Element.addr then
    match l with
    | [] => l
    | first :: _ => if first.addr = e.addr then l else e :: listRemove l e
  else l

/-- Method `(*List).Back()`: the last node, or nil on the empty list. -/
def back (l : List (Element K V)) : Option (Element K V) :=
  l.getLast?

/-- Two's-complement wrap of an integer to `int64`. -/
def wrapInt64 (x : Int) : Int :=
  (x + 2 ^ 63) % 2 ^ 64 - 2 ^ 63

/-- Constructor `New(defaultExpiration, cleanupInterval, capacity)`.  The sweeper goroutine
that `StartGC` launches is modelled by the separate steps `expiredKeys`,
`cleanItems` and `sweep`. -/
def New (defaultExpiration cleanupInterval capacity : Int) : Cache K V :=
  { items := []
    itemsNil := false
    capacity := capacity
    evictList := []
    defaultExpiration := defaultExpiration
    cleanupInterval := cleanupInterval
    nextAddr := 0 }

/-- The eviction block of `Add` (lines 62-66) and `AddWithTTL` (lines 101-105):
when the list is at least as long as the capacity, the back node is deleted from
the index and unlinked.  On an empty list `Back()` is nil and
`lastElem.Value` panics. -/
def evictBack (c : Cache K V) : Option (Cache K V) :=
  if (c.evictList.length : Int) ≥ c.capacity then
    match back c.evictList with
    | none => none
    | some lastElem =>
      some { c with
        items := mapDelete c.items lastElem.Value.Key
        evictList := listRemove c.evictList lastElem }
  else some c

/-- The tail of `Add` and `AddWithTTL`: `PushFront(item)` allocates a node and
links it first, then `c.items[key] = elem`. -/
def pushFront (c : Cache K V) (item : Items K V) : Option (Cache K V) :=
  let elem : Element K V := { addr := c.nextAddr, Value := item }
  if c.itemsNil then none
  else
    some { c with
      evictList := elem :: c.evictList
      items := mapSet c.items item.Key elem
      nextAddr := c.nextAddr + 1 }

/-- Method `Add(key, value)`; `now` is the reading of `time.Now()` stored in `Created`. -/
def Add (c : Cache K V) (key : K) (value : V) (now : Int) : Option (Cache K V) :=
  if (mapGet c.items key).isSome then some c
  else
    match evictBack c with
    | none => none
    | some c1 =>
      pushFront c1 { Key := key, Value := value, Created := now, Expiration := 0 }

/-- The deadline computed by `AddWithTTL` (lines 84-99). -/
def deadline (defaultExpiration ttl now : Int) : Int :=
  let ttl := if ttl = 0 then defaultExpiration else ttl
  if ttl > 0 then wrapInt64 (now + ttl) else 0

/-- Method `AddWithTTL(key, value, ttl)`; `now` is the first reading of `time.Now()`
(used for the deadline) and `created` the second one (stored in `Created`). -/
def AddWithTTL (c : Cache K V) (key : K) (value : V) (ttl : Int) (now created : Int) :
    Option (Cache K V) :=
  if (mapGet c.items key).isSome then some c
  else
    let expiration := deadline c.defaultExpiration ttl now
    match evictBack c with
    | none => none
    | some c1 =>
      pushFront c1
        { Key := key, Value := value, Expiration := expiration, Created := created }

/-- Method `Get(key)`: the returned pair `(value, ok)` (a nil value is `none`) and the
state after the call. -/
def Get (c : Cache K V) (key : K) : (Option V × Bool) × Cache K V :=
  match mapGet c.items key with
  | some item =>
    ((some item.Value.Value, true), { c with evictList := moveToFront c.evictList item })
  | none => ((none, false), c)

/-- Method `Remove(key)`: an absent key is logged and nothing changes. -/
def Remove (c : Cache K V) (key : K) : Cache K V :=
  match mapGet c.items key with
  | none => c
  | some element =>
    { c with
      evictList := listRemove c.evictList element
      items := mapDelete c.items key }

/-- Method `Cap()`. -/
def Cap (c : Cache K V) : Int :=
  c.capacity

/-- Method `Clear()`: the list is reinitialised and the index replaced by a new
empty map. -/
def Clear (c : Cache K V) : Cache K V :=
  { c with evictList := [], items := [], itemsNil := false }

/-- Method `GetAll()`: a new map filled by ranging over the index. -/
def GetAll (c : Cache K V) : List (K × Items K V) :=
  c.items.foldl (fun acc p => (p.1, p.2.Value) :: acc.filter (fun q => decide (q.1 ≠ p.1))) []

/-- The test of `expiredKeys` (line 31) on one record. -/
def isExpired (now : Int) (it : Items K V) : Bool :=
  decide (now > it.Expiration) && decide (it.Expiration > 0)

/-- Method `expiredKeys()`; the clock reads `now` at every test of the loop, and the
keys come in the order in which the index is ranged over. -/
def expiredKeys (c : Cache K V) (now : Int) : List K :=
  (c.items.filter (fun p => isExpired now p.2.Value)).map Prod.fst

/-- Method `cleanItems(keys)`.  For a key that is not indexed the map read yields nil
and `Remove(nil)` panics on `e.list`. -/
def cleanItems (c : Cache K V) : List K → Option (Cache K V)
  | [] => some c
  | key :: keys =>
    match mapGet c.items key with
    | none => none
    | some element =>
      cleanItems
        { c with
          evictList := listRemove c.evictList element
          items := mapDelete c.items key }
        keys

/-- One pass of the loop body of `GC` after the wait, run without interleaving:
`keys` are collected at `now` and, when there are any, cleaned. -/
def sweep (c : Cache K V) (now : Int) : Option (Cache K V) :=
  let keys := expiredKeys c now
  if keys.length ≠ 0 then cleanItems c keys else some c

/-- The records of the recency list, front to back. -/
def entries (c : Cache K V) : List (Items K V) :=
  c.evictList.map Element.Value

/-- The key of the record at the back of the recency list, if there is one. -/
def backKey (c : Cache K V) : Option K :=
  (back c.evictList).map (fun e => e.Value.Key)

/-- The operations a client or the sweeper can run as one atomic step. -/
inductive Op (K V : Type) where
  | add (key : K) (value : V) (now : Int)
  | addWithTTL (key : K) (value : V) (ttl now created : Int)
  | get (key : K)
  | remove (key : K)
  | clear
  | getAll
  | sweep (now : Int)

/-- The state after one operation, `none` when it panics. -/
def step (c : Cache K V) : Op K V → Option (Cache K V)
  | .add key value now => Add c key value now
  | .addWithTTL key value ttl now created => AddWithTTL c key value ttl now created
  | .get key => some (Get c key).2
  | .remove key => some (Remove c key)
  | .clear => some (Clear c)
  | .getAll => some c
  | .sweep now => sweep c now

/-- The state after a sequence of operations. -/
def run (c : Cache K V) : List (Op K V) → Option (Cache K V)
  | [] => some c
  | op :: ops =>
    match step c op with
    | none => none
    | some c1 => run c1 ops

/-- The representation invariant, together with the facts every Go heap and map
satisfy in this model: the index is allocated and has no repeated key, the list
nodes have pairwise different addresses below the allocator, every index entry
points to a node of the list whose record carries that key, every node of the
list is the one indexed under its key, and the list is not longer than the
capacity. -/
def Inv (c : Cache K V) : Prop :=
  c.itemsNil = false ∧
  (c.items.map Prod.fst).Nodup ∧
  (c.evictList.map Element.addr).Nodup ∧
  (∀ e ∈ c.evictList, e.addr < c.nextAddr) ∧
  (∀ p ∈ c.items, p.2 ∈ c.evictList ∧ p.2.Value.Key = p.1) ∧
  (∀ e ∈ c.evictList, (e.Value.Key, e) ∈ c.items) ∧
  (c.evictList.length : Int) ≤ c.capacity

end Defs

section SnapshotAndSweeperDefs

variable {K V : Type} [DecidableEq K]

/-- Map read on the snapshot that `GetAll` returns. -/
def snapGet : List (K × Items K V) → K → Option (Items K V)
  | [], _ => none
  | (k', it) :: rest, k => if k' = k then some it else snapGet rest k

/-- What one iteration of the loop of `GC` does after its wait. -/
inductive GCOutcome (K V : Type) where
  | returned
  | panicked
  | continues (c : Cache K V)

/-- One iteration of the `for` loop of `GC` at clock reading `now`, the wait
being over: the loop returns when `c.items == nil`, and otherwise collects and
cleans the expired keys and goes round again. -/
def GCTick (c : Cache K V) (now : Int) : GCOutcome K V :=
  if c.itemsNil then .returned
  else
    match sweep c now with
    | none => .panicked
    | some c1 => .continues c1

end SnapshotAndSweeperDefs

section FillDefs

variable {K V : Type} [DecidableEq K]

/-- The record that `Add(p.1, p.2.1)` builds at clock reading `p.2.2`. -/
def addedItem (p : K × V × Int) : Items K V :=
  { Key := p.1, Value := p.2.1, Created := p.2.2, Expiration := 0 }

/-- One call of `Add` for every triple of key, value and clock reading, in the
order of the list. -/
def addOps (kvs : List (K × V × Int)) : List (Op K V) :=
  kvs.map (fun p => Op.add p.1 p.2.1 p.2.2)

end FillDefs

/-! ### Concrete states -/

/-- A cache of capacity 2 that is full: key 2 is the most recent, key 1 the
least recent; neither has a deadline. -/
def demoFull : Cache Nat Nat :=
  { items := [(2, ⟨1, ⟨2, 20, 101, 0⟩⟩), (1, ⟨0, ⟨1, 10, 100, 0⟩⟩)]
    itemsNil := false
    capacity := 2
    evictList := [⟨1, ⟨2, 20, 101, 0⟩⟩, ⟨0, ⟨1, 10, 100, 0⟩⟩]
    defaultExpiration := 0
    cleanupInterval := 0
    nextAddr := 2 }

/-- A cache of capacity 3 holding, front to back, key 3 with deadline 52, key 2
without a deadline and key 1 with deadline 500. -/
def demoTTL : Cache Nat Nat :=
  { items := [(3, ⟨2, ⟨3, 30, 12, 52⟩⟩), (2, ⟨1, ⟨2, 20, 11, 0⟩⟩), (1, ⟨0, ⟨1, 10, 10, 500⟩⟩)]
    itemsNil := false
    capacity := 3
    evictList := [⟨2, ⟨3, 30, 12, 52⟩⟩, ⟨1, ⟨2, 20, 11, 0⟩⟩, ⟨0, ⟨1, 10, 10, 500⟩⟩]
    defaultExpiration := 40
    cleanupInterval := 100
    nextAddr := 3 }

/-- A run that admits, looks up, evicts, removes, sweeps and clears. -/
def demoOps : List (Op Nat Nat) :=
  [.add 1 10 100, .addWithTTL 2 20 50 101 101, .get 1, .add 3 30 102, .getAll,
   .remove 7, .sweep 200, .add 4 40 201, .remove 3, .clear, .add 5 50 300]

/-- The client calls that build `demoTTL` from `New 40 100 3`. -/
def demoTTLOps : List (Op Nat Nat) :=
  [.addWithTTL 1 10 490 10 10, .add 2 20 11, .addWithTTL 3 30 0 12 12]

/-- The three insertions of the recency scenario, into a cache of capacity 3. -/
def demoThreeOps : List (Op Nat Nat) :=
  [.add 1 10 100, .add 2 20 101, .add 3 30 102]

/-- The state after `demoThreeOps` from `New 0 0 3`: keys 3, 2, 1 front to back. -/
def demoThree : Cache Nat Nat :=
  { items := [(3, ⟨2, ⟨3, 30, 102, 0⟩⟩), (2, ⟨1, ⟨2, 20, 101, 0⟩⟩), (1, ⟨0, ⟨1, 10, 100, 0⟩⟩)]
    itemsNil := false
    capacity := 3
    evictList := [⟨2, ⟨3, 30, 102, 0⟩⟩, ⟨1, ⟨2, 20, 101, 0⟩⟩, ⟨0, ⟨1, 10, 100, 0⟩⟩]
    defaultExpiration := 0
    cleanupInterval := 0
    nextAddr := 3 }

/-- A cache without default expiration that holds key 1 with deadline 52; it is
the state after `AddWithTTL 1 10 42` at clock reading 10 on `New 0 100 3`. -/
def demoDeadline : Cache Nat Nat :=
  { items := [(1, ⟨0, ⟨1, 10, 10, 52⟩⟩)]
    itemsNil := false
    capacity := 3
    evictList := [⟨0, ⟨1, 10, 10, 52⟩⟩]
    defaultExpiration := 0
    cleanupInterval := 100
    nextAddr := 1 }

/-- One second as a `time.Duration` (nanoseconds). -/
def second : Int := 1000000000

/-- The insertions of `main`: five calls of `Add` at the clock readings `t1` to
`t5` and `AddWithTTL(6, ok, 0)`, whose two clock readings are `t0` and `t0c`. -/
def mainOps (t1 t2 t3 t4 t5 t0 t0c : Int) : List (Op Nat String) :=
  [.add 1 "hello" t1, .add 2 "world" t2, .add 3 "how" t3, .add 4 "are" t4,
   .add 5 "you" t5, .addWithTTL 6 "ok" 0 t0 t0c]

/-- The calls `main` makes between the insertions and the sleep: `Get(3)`,
`Get(4)` and `GetAll()`. -/
def mainLookups : List (Op Nat String) :=
  [.get 3, .get 4, .getAll]

/-- The state of `main` after its insertions: keys 6, 5, 4 front to back, key 6
created at `t0c` with deadline `exp`, keys 5 and 4 created at `t5` and `t4`
without a deadline. -/
def mainState (t4 t5 t0c exp : Int) : Cache Nat String :=
  { items := [(6, ⟨5, ⟨6, "ok", t0c, exp⟩⟩), (5, ⟨4, ⟨5, "you", t5, 0⟩⟩),
              (4, ⟨3, ⟨4, "are", t4, 0⟩⟩)]
    itemsNil := false
    capacity := 3
    evictList := [⟨5, ⟨6, "ok", t0c, exp⟩⟩, ⟨4, ⟨5, "you", t5, 0⟩⟩, ⟨3, ⟨4, "are", t4, 0⟩⟩]
    defaultExpiration := 5 * second
    cleanupInterval := 10 * second
    nextAddr := 6 }

/-- Keys 1 to 4 with values 10 to 40, inserted at clock readings 100 to 103. -/
def demoFour : List (Nat × Nat × Int) :=
  [(1, 10, 100), (2, 20, 101), (3, 30, 102), (4, 40, 103)]

section Lemmas

variable {K V : Type} [DecidableEq K]

/-! ### The index as a map -/

theorem mapGet_mem {m : List (K × Element K V)} {k : K} {e : Element K V}
    (h : mapGet m k = some e) : (k, e) ∈ m := by
  induction m with
  | nil => simp [mapGet] at h
  | cons p rest ih =>
    obtain ⟨k', e'⟩ := p
    by_cases hk : k' = k
    · simp [mapGet, hk] at h
      simp [hk, h]
    · simp [mapGet, hk] at h
      exact List.mem_cons_of_mem _ (ih h)

theorem mapGet_of_mem {m : List (K × Element K V)} {k : K} {e : Element K V}
    (hnd : (m.map Prod.fst).Nodup) (h : (k, e) ∈ m) : mapGet m k = some e := by
  induction m with
  | nil => simp at h
  | cons p rest ih =>
    obtain ⟨k', e'⟩ := p
    simp only [List.map_cons, List.nodup_cons] at hnd
    rcases List.mem_cons.mp h with heq | hin
    · cases heq
      simp [mapGet]
    · have hne : k' ≠ k := by
        rintro rfl
        exact hnd.1 (List.mem_map.mpr ⟨(k', e), hin, rfl⟩)
      simp only [mapGet, hne, if_false]
      exact ih hnd.2 hin

theorem mapGet_eq_none_iff {m : List (K × Element K V)} {k : K} :
    mapGet m k = none ↔ ∀ p ∈ m, p.1 ≠ k := by
  induction m with
  | nil => simp [mapGet]
  | cons p rest ih =>
    obtain ⟨k', e'⟩ := p
    by_cases hk : k' = k
    · simp [mapGet, hk]
    · simp [mapGet, hk, ih]

theorem mapGet_isSome_iff {m : List (K × Element K V)} {k : K} :
    (mapGet m k).isSome ↔ k ∈ m.map Prod.fst := by
  rw [← not_iff_not]
  simp only [Bool.not_eq_true, Option.not_isSome, Option.isNone_iff_eq_none,
    mapGet_eq_none_iff, List.mem_map, not_exists, not_and]

theorem mem_mapDelete {m : List (K × Element K V)} {k : K} {p : K × Element K V} :
    p ∈ mapDelete m k ↔ p ∈ m ∧ p.1 ≠ k := by
  simp [mapDelete, List.mem_filter]

theorem mapDelete_cons (a : K) (e : Element K V) (rest : List (K × Element K V)) (k : K) :
    mapDelete ((a, e) :: rest) k =
      if a = k then mapDelete rest k else (a, e) :: mapDelete rest k := by
  by_cases ha : a = k <;> simp [mapDelete, List.filter_cons, ha]

theorem mapGet_mapDelete (m : List (K × Element K V)) (k k' : K) :
    mapGet (mapDelete m k) k' = if k' = k then none else mapGet m k' := by
  induction m with
  | nil => simp [mapDelete, mapGet]
  | cons p rest ih =>
    obtain ⟨a, e⟩ := p
    rw [mapDelete_cons]
    by_cases ha : a = k
    · rw [if_pos ha, ih]
      subst ha
      by_cases hk : k' = a
      · simp [hk]
      · have hk2 : ¬ a = k' := fun h => hk h.symm
        simp [hk, mapGet, hk2]
    · rw [if_neg ha]
      simp only [mapGet, ih]
      by_cases hak : a = k'
      · subst hak
        simp [ha]
      · simp [hak]

theorem mapDelete_of_absent {m : List (K × Element K V)} {k : K}
    (h : mapGet m k = none) : mapDelete m k = m := by
  rw [mapGet_eq_none_iff] at h
  simp only [mapDelete]
  exact List.filter_eq_self.mpr (fun p hp => by simpa using h p hp)

theorem mapDelete_keys_nodup {m : List (K × Element K V)} (k : K)
    (h : (m.map Prod.fst).Nodup) : ((mapDelete m k).map Prod.fst).Nodup :=
  h.sublist ((List.filter_sublist m).map Prod.fst)

/-! ### The recency list -/

theorem mem_listRemove {l : List (Element K V)} {e x : Element K V} :
    x ∈ listRemove l e ↔ x ∈ l ∧ x.addr ≠ e.addr := by
  simp [listRemove, List.mem_filter]

theorem listRemove_addr_nodup {l : List (Element K V)} (e : Element K V)
    (h : (l.map Element.addr).Nodup) : ((listRemove l e).map Element.addr).Nodup :=
  h.sublist ((List.filter_sublist l).map Element.addr)

theorem eq_of_addr_eq {l : List (Element K V)} (h : (l.map Element.addr).Nodup)
    {x y : Element K V} (hx : x ∈ l) (hy : y ∈ l) (hxy : x.addr = y.addr) : x = y :=
  List.inj_on_of_nodup_map h hx hy hxy

theorem listRemove_head {e : Element K V} {rest : List (Element K V)}
    (h : ((e :: rest).map Element.addr).Nodup) : listRemove (e :: rest) e = rest := by
  simp only [List.map_cons, List.nodup_cons] at h
  simp only [listRemove, List.filter_cons, ne_eq, not_true_eq_false, decide_False]
  simp only [Bool.false_eq_true, if_false]
  apply List.filter_eq_self.mpr
  intro y hy
  have : y.addr ≠ e.addr := fun hh => h.1 (hh ▸ List.mem_map_of_mem _ hy)
  simpa using this

theorem listRemove_length {l : List (Element K V)} {e : Element K V}
    (h : (l.map Element.addr).Nodup) (he : e ∈ l) :
    (listRemove l e).length + 1 = l.length := by
  induction l with
  | nil => simp at he
  | cons x rest ih =>
    simp only [List.map_cons, List.nodup_cons] at h
    rcases List.mem_cons.mp he with heq | hin
    · subst heq
      have : listRemove (e :: rest) e = rest := by
        simp only [listRemove, List.filter_cons, ne_eq, not_true_eq_false, decide_False]
        simp only [Bool.false_eq_true, if_false]
        apply List.filter_eq_self.mpr
        intro y hy
        have : y.addr ≠ e.addr := fun hh => h.1 (hh ▸ List.mem_map_of_mem _ hy)
        simpa using this
      rw [this]
      simp
    · have hne : x.addr ≠ e.addr := fun hh => h.1 (hh ▸ List.mem_map_of_mem _ hin)
      have : listRemove (x :: rest) e = x :: listRemove rest e := by
        simp [listRemove, List.filter_cons, hne]
      rw [this]
      simp [ih h.2 hin]

theorem listRemove_back {l : List (Element K V)} {e : Element K V}
    (h : (l.map Element.addr).Nodup) (he : back l = some e) :
    listRemove l e = l.dropLast := by
  have hsplit : l.dropLast ++ [e] = l := List.dropLast_append_getLast? e he
  have hnd : ((l.dropLast ++ [e]).map Element.addr).Nodup := by rw [hsplit]; exact h
  rw [List.map_append, List.nodup_append] at hnd
  have hdis := hnd.2.2
  conv_lhs => rw [← hsplit]
  simp only [listRemove, List.filter_append]
  have h1 : List.filter (fun x => decide (x.addr ≠ e.addr)) l.dropLast = l.dropLast := by
    apply List.filter_eq_self.mpr
    intro y hy
    have : y.addr ≠ e.addr := fun hh =>
      hdis (List.mem_map_of_mem _ hy) (by simp [hh])
    simpa using this
  rw [h1]
  simp

/-! ### Preservation of the invariant -/

theorem Inv_New (d i n : Int) (hn : 0 ≤ n) : Inv (New d i n : Cache K V) := by
  simp [Inv, New, hn]

theorem Inv_indexed_get {c : Cache K V} (h : Inv c) {k : K} {e : Element K V}
    (hg : mapGet c.items k = some e) : e ∈ c.evictList ∧ e.Value.Key = k :=
  h.2.2.2.2.1 (k, e) (mapGet_mem hg)

theorem Inv_listed_get {c : Cache K V} (h : Inv c) {e : Element K V}
    (he : e ∈ c.evictList) : mapGet c.items e.Value.Key = some e :=
  mapGet_of_mem h.2.1 (h.2.2.2.2.2.1 e he)

/-- Unlinking an indexed node and deleting its key, the step shared by `Remove`,
`cleanItems` and the eviction block. -/
theorem Inv_unlink {c : Cache K V} (h : Inv c) {k : K} {e : Element K V}
    (hg : mapGet c.items k = some e) :
    Inv { c with evictList := listRemove c.evictList e, items := mapDelete c.items k } := by
  have hke := Inv_indexed_get h hg
  obtain ⟨h1, h2, h3, h4, h5, h6, h7⟩ := h
  refine ⟨h1, mapDelete_keys_nodup k h2, listRemove_addr_nodup e h3, ?_, ?_, ?_, ?_⟩
  · intro x hx
    exact h4 x (mem_listRemove.mp hx).1
  · intro p hp
    obtain ⟨hp1, hp2⟩ := mem_mapDelete.mp hp
    obtain ⟨hin, hkey⟩ := h5 p hp1
    refine ⟨mem_listRemove.mpr ⟨hin, ?_⟩, hkey⟩
    intro haddr
    have : p.2 = e := eq_of_addr_eq h3 hin hke.1 haddr
    apply hp2
    rw [← hkey, this]
    exact hke.2
  · intro x hx
    obtain ⟨hx1, hx2⟩ := mem_listRemove.mp hx
    refine mem_mapDelete.mpr ⟨h6 x hx1, ?_⟩
    intro hk
    have hgx : mapGet c.items x.Value.Key = some x := mapGet_of_mem h2 (h6 x hx1)
    simp only at hk
    rw [hk, hg] at hgx
    exact hx2 (by cases hgx; rfl)
  · have hlen : (listRemove c.evictList e).length ≤ c.evictList.length :=
      List.length_filter_le _ _
    simp only
    omega

theorem unlink_length {c : Cache K V} (h : Inv c) {k : K} {e : Element K V}
    (hg : mapGet c.items k = some e) :
    (listRemove c.evictList e).length + 1 = c.evictList.length :=
  listRemove_length h.2.2.1 (Inv_indexed_get h hg).1

theorem evictBack_of_lt {c : Cache K V} (hlt : (c.evictList.length : Int) < c.capacity) :
    evictBack c = some c := by
  have : ¬ (c.evictList.length : Int) ≥ c.capacity := by omega
  simp [evictBack, this]

theorem back_of_ne_nil {l : List (Element K V)} (hl : l ≠ []) :
    ∃ e, back l = some e ∧ e ∈ l := by
  refine ⟨l.getLast hl, ?_, List.getLast_mem hl⟩
  simp [back, List.getLast?_eq_getLast _ hl]

theorem evictBack_of_ge {c : Cache K V} (hcap : 1 ≤ c.capacity)
    (hge : (c.evictList.length : Int) ≥ c.capacity) :
    ∃ last, back c.evictList = some last ∧ last ∈ c.evictList ∧
      evictBack c = some { c with
        items := mapDelete c.items last.Value.Key
        evictList := listRemove c.evictList last } := by
  have hne : c.evictList ≠ [] := by
    intro h0
    rw [h0] at hge
    simp at hge
    omega
  obtain ⟨last, hb, hmem⟩ := back_of_ne_nil hne
  exact ⟨last, hb, hmem, by simp [evictBack, hge, hb]⟩

/-- The eviction block never panics when the capacity is positive, and leaves
room for one more node. -/
theorem evictBack_Inv {c : Cache K V} (h : Inv c) (hcap : 1 ≤ c.capacity) :
    ∃ c1, evictBack c = some c1 ∧ Inv c1 ∧ (c1.evictList.length : Int) < c1.capacity ∧
      c1.capacity = c.capacity ∧ (∀ p ∈ c1.items, p ∈ c.items) := by
  by_cases hge : (c.evictList.length : Int) ≥ c.capacity
  · obtain ⟨last, _, hmem, hev⟩ := evictBack_of_ge hcap hge
    have hg := Inv_listed_get h hmem
    refine ⟨_, hev, Inv_unlink h hg, ?_, rfl, fun p hp => (mem_mapDelete.mp hp).1⟩
    have hlen := unlink_length h hg
    have hb := h.2.2.2.2.2.2
    simp only
    omega
  · have hlt : (c.evictList.length : Int) < c.capacity := by omega
    exact ⟨c, evictBack_of_lt hlt, h, hlt, rfl, fun p hp => hp⟩

theorem pushFront_eq {c : Cache K V} (h : c.itemsNil = false) (item : Items K V) :
    pushFront c item = some { c with
      evictList := { addr := c.nextAddr, Value := item } :: c.evictList
      items := mapSet c.items item.Key { addr := c.nextAddr, Value := item }
      nextAddr := c.nextAddr + 1 } := by
  simp [pushFront, h]

theorem Inv_pushFront {c : Cache K V} (h : Inv c) (hlt : (c.evictList.length : Int) < c.capacity)
    (item : Items K V) (habs : mapGet c.items item.Key = none) :
    ∃ c1, pushFront c item = some c1 ∧ Inv c1 := by
  obtain ⟨h1, h2, h3, h4, h5, h6, h7⟩ := h
  refine ⟨_, pushFront_eq h1 item, ?_⟩
  rw [mapGet_eq_none_iff] at habs
  refine ⟨h1, ?_, ?_, ?_, ?_, ?_, ?_⟩
  · simp only [mapSet, List.map_cons, List.nodup_cons]
    refine ⟨?_, mapDelete_keys_nodup _ h2⟩
    intro hin
    obtain ⟨p, hp, hpk⟩ := List.mem_map.mp hin
    exact (mem_mapDelete.mp hp).2 hpk
  · simp only [List.map_cons, List.nodup_cons]
    refine ⟨?_, h3⟩
    intro hin
    obtain ⟨x, hx, hxa⟩ := List.mem_map.mp hin
    have := h4 x hx
    omega
  · intro x hx
    rcases List.mem_cons.mp hx with rfl | hx
    · simp
    · have := h4 x hx
      simp only
      omega
  · intro p hp
    rcases List.mem_cons.mp hp with rfl | hp
    · simp
    · obtain ⟨hin, hkey⟩ := h5 p (mem_mapDelete.mp hp).1
      exact ⟨List.mem_cons_of_mem _ hin, hkey⟩
  · intro x hx
    rcases List.mem_cons.mp hx with rfl | hx
    · simp [mapSet]
    · refine List.mem_cons_of_mem _ (mem_mapDelete.mpr ⟨h6 x hx, ?_⟩)
      exact habs _ (h6 x hx)
  · simp only [List.length_cons]
    push_cast
    omega

theorem pushFront_capacity {c c1 : Cache K V} {item : Items K V}
    (h : pushFront c item = some c1) : c1.capacity = c.capacity := by
  unfold pushFront at h
  split at h
  · cases h
  · cases h
    rfl

theorem Inv_Add {c : Cache K V} (h : Inv c) (hcap : 1 ≤ c.capacity) (key : K) (value : V)
    (now : Int) : ∃ c1, Add c key value now = some c1 ∧ Inv c1 ∧ c1.capacity = c.capacity := by
  by_cases hdup : (mapGet c.items key).isSome
  · exact ⟨c, by simp [Add, hdup], h, rfl⟩
  · obtain ⟨c1, hev, hinv1, hlt, hc1, hsub⟩ := evictBack_Inv h hcap
    have habs : mapGet c1.items key = none := by
      rw [mapGet_eq_none_iff]
      intro p hp
      have hnone : mapGet c.items key = none := by simpa using hdup
      exact (mapGet_eq_none_iff.mp hnone) p (hsub p hp)
    obtain ⟨c2, hpf, hinv2⟩ := Inv_pushFront hinv1 hlt
      { Key := key, Value := value, Created := now, Expiration := 0 } habs
    refine ⟨c2, by simp [Add, hdup, hev, hpf], hinv2, ?_⟩
    rw [pushFront_capacity hpf, hc1]

theorem Inv_AddWithTTL {c : Cache K V} (h : Inv c) (hcap : 1 ≤ c.capacity) (key : K)
    (value : V) (ttl now created : Int) :
    ∃ c1, AddWithTTL c key value ttl now created = some c1 ∧ Inv c1 ∧
      c1.capacity = c.capacity := by
  by_cases hdup : (mapGet c.items key).isSome
  · exact ⟨c, by simp [AddWithTTL, hdup], h, rfl⟩
  · obtain ⟨c1, hev, hinv1, hlt, hc1, hsub⟩ := evictBack_Inv h hcap
    have habs : mapGet c1.items key = none := by
      rw [mapGet_eq_none_iff]
      intro p hp
      have hnone : mapGet c.items key = none := by simpa using hdup
      exact (mapGet_eq_none_iff.mp hnone) p (hsub p hp)
    obtain ⟨c2, hpf, hinv2⟩ := Inv_pushFront hinv1 hlt
      { Key := key, Value := value, Expiration := deadline c.defaultExpiration ttl now,
        Created := created } habs
    refine ⟨c2, by simp [AddWithTTL, hdup, hev, hpf], hinv2, ?_⟩
    rw [pushFront_capacity hpf, hc1]

theorem moveToFront_of_mem {l : List (Element K V)} {e : Element K V}
    (hnd : (l.map Element.addr).Nodup) (he : e ∈ l) :
    moveToFront l e = e :: listRemove l e := by
  have hmem : e.addr ∈ l.map Element.addr := List.mem_map_of_mem _ he
  cases l with
  | nil => simp at he
  | cons x rest =>
    simp only [moveToFront, hmem, if_true]
    by_cases hx : x.addr = e.addr
    · have hxe : x = e := eq_of_addr_eq hnd (List.mem_cons_self _ _) he hx
      subst hxe
      simp only [if_true]
      rw [listRemove_head hnd]
    · simp only [hx, if_false]

theorem Get_hit {c : Cache K V} {key : K} {e : Element K V}
    (hg : mapGet c.items key = some e) :
    Get c key = ((some e.Value.Value, true),
      { c with evictList := moveToFront c.evictList e }) := by
  simp [Get, hg]

theorem Get_miss {c : Cache K V} {key : K} (hg : mapGet c.items key = none) :
    Get c key = ((none, false), c) := by
  simp [Get, hg]

theorem Inv_Get {c : Cache K V} (h : Inv c) (key : K) : Inv (Get c key).2 := by
  cases hg : mapGet c.items key with
  | none => rw [Get_miss hg]; exact h
  | some e =>
    rw [Get_hit hg]
    have hke := Inv_indexed_get h hg
    obtain ⟨h1, h2, h3, h4, h5, h6, h7⟩ := h
    simp only [moveToFront_of_mem h3 hke.1]
    refine ⟨h1, h2, ?_, ?_, ?_, ?_, ?_⟩
    · simp only [List.map_cons, List.nodup_cons]
      refine ⟨?_, listRemove_addr_nodup e h3⟩
      intro hin
      obtain ⟨x, hx, hxa⟩ := List.mem_map.mp hin
      exact (mem_listRemove.mp hx).2 hxa
    · intro x hx
      rcases List.mem_cons.mp hx with rfl | hx
      · exact h4 _ hke.1
      · exact h4 x (mem_listRemove.mp hx).1
    · intro p hp
      obtain ⟨hin, hkey⟩ := h5 p hp
      refine ⟨?_, hkey⟩
      by_cases ha : p.2.addr = e.addr
      · rw [eq_of_addr_eq h3 hin hke.1 ha]
        exact List.mem_cons_self _ _
      · exact List.mem_cons_of_mem _ (mem_listRemove.mpr ⟨hin, ha⟩)
    · intro x hx
      rcases List.mem_cons.mp hx with rfl | hx
      · exact h6 _ hke.1
      · exact h6 x (mem_listRemove.mp hx).1
    · have := listRemove_length h3 hke.1
      simp only [List.length_cons]
      omega

theorem Inv_Remove {c : Cache K V} (h : Inv c) (key : K) : Inv (Remove c key) := by
  cases hg : mapGet c.items key with
  | none => simp only [Remove, hg]; exact h
  | some e => simp only [Remove, hg]; exact Inv_unlink h hg

theorem Inv_Clear (c : Cache K V) (hcap : 0 ≤ c.capacity) : Inv (Clear c) := by
  simp [Inv, Clear, hcap]

/-- Under the invariant the node indexed under `k` is the only node of the list
whose record has key `k`. -/
theorem listRemove_eq_filter_key {c : Cache K V} (h : Inv c) {k : K} {e : Element K V}
    (hg : mapGet c.items k = some e) :
    listRemove c.evictList e = c.evictList.filter (fun x => decide (x.Value.Key ≠ k)) := by
  have hke := Inv_indexed_get h hg
  apply List.filter_congr
  intro x hx
  have hiff : x.addr ≠ e.addr ↔ x.Value.Key ≠ k := by
    constructor
    · intro ha hk
      have hgx := Inv_listed_get h hx
      rw [hk, hg] at hgx
      exact ha (by cases hgx; rfl)
    · intro hk ha
      exact hk (by rw [eq_of_addr_eq h.2.2.1 hx hke.1 ha]; exact hke.2)
  simp only [decide_eq_decide]
  exact hiff

/-- What `cleanItems` computes on a list of pairwise different indexed keys. -/
theorem cleanItems_eq (keys : List K) : ∀ {c : Cache K V}, Inv c → keys.Nodup →
    (∀ k ∈ keys, (mapGet c.items k).isSome) →
    cleanItems c keys = some { c with
      evictList := c.evictList.filter (fun x => decide (x.Value.Key ∉ keys))
      items := c.items.filter (fun p => decide (p.1 ∉ keys)) } := by
  induction keys with
  | nil =>
    intro c _ _ _
    simp [cleanItems]
  | cons k rest ih =>
    intro c h hnd hall
    obtain ⟨e, hg⟩ := Option.isSome_iff_exists.mp (hall k (List.mem_cons_self _ _))
    simp only [List.nodup_cons] at hnd
    have hinv1 := Inv_unlink h hg
    have hall1 : ∀ k' ∈ rest, (mapGet (mapDelete c.items k) k').isSome := by
      intro k' hk'
      have hne : k' ≠ k := fun hh => hnd.1 (hh ▸ hk')
      rw [mapGet_mapDelete, if_neg hne]
      exact hall k' (List.mem_cons_of_mem _ hk')
    simp only [cleanItems, hg]
    rw [ih hinv1 hnd.2 hall1]
    have e1 : List.filter (fun x => decide (x.Value.Key ∉ rest))
        (List.filter (fun x => decide (x.Value.Key ≠ k)) c.evictList) =
        List.filter (fun x => decide (x.Value.Key ∉ k :: rest)) c.evictList := by
      rw [List.filter_filter]
      apply List.filter_congr
      intro x _
      by_cases hx : x.Value.Key = k <;> simp [hx]
    have e2 : List.filter (fun p => decide (p.1 ∉ rest))
        (List.filter (fun p => decide (p.1 ≠ k)) c.items) =
        List.filter (fun p => decide (p.1 ∉ k :: rest)) c.items := by
      rw [List.filter_filter]
      apply List.filter_congr
      intro p _
      by_cases hp : p.1 = k <;> simp [hp]
    simp only [listRemove_eq_filter_key h hg, mapDelete, e1, e2]

theorem cleanItems_Inv (keys : List K) : ∀ {c : Cache K V}, Inv c → keys.Nodup →
    (∀ k ∈ keys, (mapGet c.items k).isSome) →
    ∃ c1, cleanItems c keys = some c1 ∧ Inv c1 ∧ c1.capacity = c.capacity := by
  induction keys with
  | nil =>
    intro c h _ _
    exact ⟨c, rfl, h, rfl⟩
  | cons k rest ih =>
    intro c h hnd hall
    obtain ⟨e, hg⟩ := Option.isSome_iff_exists.mp (hall k (List.mem_cons_self _ _))
    simp only [List.nodup_cons] at hnd
    have hall1 : ∀ k' ∈ rest, (mapGet (mapDelete c.items k) k').isSome := by
      intro k' hk'
      have hne : k' ≠ k := fun hh => hnd.1 (hh ▸ hk')
      rw [mapGet_mapDelete, if_neg hne]
      exact hall k' (List.mem_cons_of_mem _ hk')
    obtain ⟨c1, hc1, hinv1, hcap1⟩ := ih (Inv_unlink h hg) hnd.2 hall1
    exact ⟨c1, by simp only [cleanItems, hg]; exact hc1, hinv1, hcap1⟩

theorem expiredKeys_nodup {c : Cache K V} (h : (c.items.map Prod.fst).Nodup) (now : Int) :
    (expiredKeys c now).Nodup :=
  h.sublist ((List.filter_sublist c.items).map Prod.fst)

theorem mem_expiredKeys {c : Cache K V} (h : (c.items.map Prod.fst).Nodup) {now : Int}
    {k : K} : k ∈ expiredKeys c now ↔
      ∃ e, mapGet c.items k = some e ∧ isExpired now e.Value = true := by
  constructor
  · intro hk
    obtain ⟨p, hp, hpk⟩ := List.mem_map.mp hk
    obtain ⟨hp1, hp2⟩ := List.mem_filter.mp hp
    obtain ⟨a, e⟩ := p
    simp only at hpk hp2
    subst hpk
    exact ⟨e, mapGet_of_mem h hp1, hp2⟩
  · rintro ⟨e, hg, hexp⟩
    exact List.mem_map.mpr ⟨(k, e), List.mem_filter.mpr ⟨mapGet_mem hg, hexp⟩, rfl⟩

theorem expiredKeys_indexed {c : Cache K V} (h : (c.items.map Prod.fst).Nodup) (now : Int) :
    ∀ k ∈ expiredKeys c now, (mapGet c.items k).isSome := by
  intro k hk
  obtain ⟨e, hg, _⟩ := (mem_expiredKeys h).mp hk
  simp [hg]

/-- Cleaning the expired keys, collected in any order, filters the list and the
index by the expiry test. -/
theorem cleanItems_expired {c : Cache K V} (h : Inv c) (now : Int) {keys : List K}
    (hp : keys.Perm (expiredKeys c now)) :
    cleanItems c keys = some { c with
      evictList := c.evictList.filter (fun x => !isExpired now x.Value)
      items := c.items.filter (fun p => !isExpired now p.2.Value) } := by
  have hnd : keys.Nodup := hp.nodup_iff.mpr (expiredKeys_nodup h.2.1 now)
  have hall : ∀ k ∈ keys, (mapGet c.items k).isSome :=
    fun k hk => expiredKeys_indexed h.2.1 now k (hp.mem_iff.mp hk)
  rw [cleanItems_eq keys h hnd hall]
  have e1 : c.evictList.filter (fun x => decide (x.Value.Key ∉ keys)) =
      c.evictList.filter (fun x => !isExpired now x.Value) := by
    apply List.filter_congr
    intro x hx
    have hgx := Inv_listed_get h hx
    have hiff : x.Value.Key ∈ keys ↔ isExpired now x.Value = true := by
      rw [hp.mem_iff, mem_expiredKeys h.2.1]
      constructor
      · rintro ⟨e, hg, hexp⟩
        rw [hgx] at hg
        cases hg
        exact hexp
      · intro hexp
        exact ⟨x, hgx, hexp⟩
    by_cases hexp : isExpired now x.Value = true
    · simp [hexp, hiff.mpr hexp]
    · have : x.Value.Key ∉ keys := fun hh => hexp (hiff.mp hh)
      simp [hexp, this]
  have e2 : c.items.filter (fun p => decide (p.1 ∉ keys)) =
      c.items.filter (fun p => !isExpired now p.2.Value) := by
    apply List.filter_congr
    intro p hpm
    have hgp : mapGet c.items p.1 = some p.2 := mapGet_of_mem h.2.1 hpm
    have hiff : p.1 ∈ keys ↔ isExpired now p.2.Value = true := by
      rw [hp.mem_iff, mem_expiredKeys h.2.1]
      constructor
      · rintro ⟨e, hg, hexp⟩
        rw [hgp] at hg
        cases hg
        exact hexp
      · intro hexp
        exact ⟨p.2, hgp, hexp⟩
    by_cases hexp : isExpired now p.2.Value = true
    · simp [hexp, hiff.mpr hexp]
    · have : p.1 ∉ keys := fun hh => hexp (hiff.mp hh)
      simp [hexp, this]
  rw [e1, e2]

theorem sweep_eq_cleanItems (c : Cache K V) (now : Int) :
    sweep c now = cleanItems c (expiredKeys c now) := by
  unfold sweep
  cases hk : expiredKeys c now with
  | nil => simp [cleanItems]
  | cons k rest => simp

theorem Inv_sweep {c : Cache K V} (h : Inv c) (now : Int) :
    ∃ c1, sweep c now = some c1 ∧ Inv c1 ∧ c1.capacity = c.capacity := by
  rw [sweep_eq_cleanItems]
  exact cleanItems_Inv _ h (expiredKeys_nodup h.2.1 now) (expiredKeys_indexed h.2.1 now)

theorem Inv_step {c : Cache K V} (h : Inv c) (hcap : 1 ≤ c.capacity) (op : Op K V) :
    ∃ c1, step c op = some c1 ∧ Inv c1 ∧ c1.capacity = c.capacity := by
  cases op with
  | add key value now => exact Inv_Add h hcap key value now
  | addWithTTL key value ttl now created => exact Inv_AddWithTTL h hcap key value ttl now created
  | get key =>
    refine ⟨_, rfl, Inv_Get h key, ?_⟩
    unfold Get
    split <;> rfl
  | remove key =>
    refine ⟨_, rfl, Inv_Remove h key, ?_⟩
    unfold Remove
    split <;> rfl
  | clear => exact ⟨_, rfl, Inv_Clear c (by omega), rfl⟩
  | getAll => exact ⟨c, rfl, h, rfl⟩
  | sweep now => exact Inv_sweep h now

theorem Inv_run (ops : List (Op K V)) : ∀ {c : Cache K V}, Inv c → 1 ≤ c.capacity →
    ∃ c1, run c ops = some c1 ∧ Inv c1 ∧ c1.capacity = c.capacity := by
  induction ops with
  | nil =>
    intro c h _
    exact ⟨c, rfl, h, rfl⟩
  | cons op rest ih =>
    intro c h hcap
    obtain ⟨c1, hs, hinv1, hcap1⟩ := Inv_step h hcap op
    obtain ⟨c2, hr, hinv2, hcap2⟩ := ih hinv1 (by omega)
    exact ⟨c2, by simp only [run, hs]; exact hr, hinv2, by omega⟩

/-! ### Consequences of the invariant -/

theorem Inv_items_perm {c : Cache K V} (h : Inv c) :
    c.items.Perm (c.evictList.map (fun e => (e.Value.Key, e))) := by
  obtain ⟨_, h2, h3, _, h5, h6, _⟩ := h
  have hnd1 : c.items.Nodup := List.Nodup.of_map Prod.fst h2
  have hnd2 : (c.evictList.map (fun e => (e.Value.Key, e))).Nodup := by
    refine List.Nodup.map_on ?_ (List.Nodup.of_map Element.addr h3)
    intro x _ y _ hxy
    exact (Prod.mk.inj hxy).2
  rw [List.perm_ext_iff_of_nodup hnd1 hnd2]
  intro p
  constructor
  · intro hp
    obtain ⟨hin, hkey⟩ := h5 p hp
    exact List.mem_map.mpr ⟨p.2, hin, by rw [hkey]⟩
  · intro hp
    obtain ⟨e, he, rfl⟩ := List.mem_map.mp hp
    exact h6 e he

theorem Inv_length_eq {c : Cache K V} (h : Inv c) :
    c.items.length = c.evictList.length := by
  rw [(Inv_items_perm h).length_eq, List.length_map]

theorem Inv_keys_perm {c : Cache K V} (h : Inv c) :
    (c.items.map Prod.fst).Perm (c.evictList.map (fun e => e.Value.Key)) := by
  have := (Inv_items_perm h).map Prod.fst
  simpa [List.map_map, Function.comp_def] using this

theorem Inv_list_keys_nodup {c : Cache K V} (h : Inv c) :
    (c.evictList.map (fun e => e.Value.Key)).Nodup :=
  (Inv_keys_perm h).nodup_iff.mp h.2.1

/-! ### Insertion of a new key -/

theorem mapGet_mapSet (m : List (K × Element K V)) (k k' : K) (e : Element K V) :
    mapGet (mapSet m k e) k' = if k' = k then some e else mapGet m k' := by
  by_cases hk : k' = k
  · subst hk
    simp [mapSet, mapGet]
  · have hk2 : ¬ k = k' := fun hh => hk hh.symm
    simp [mapSet, mapGet, hk, hk2, mapGet_mapDelete]

theorem Add_of_absent {c : Cache K V} {key : K} (habs : mapGet c.items key = none) (value : V)
    (now : Int) : Add c key value now = (evictBack c).bind (fun c1 =>
      pushFront c1 { Key := key, Value := value, Created := now, Expiration := 0 }) := by
  unfold Add
  rw [habs]
  cases evictBack c <;> simp

theorem AddWithTTL_of_absent {c : Cache K V} {key : K} (habs : mapGet c.items key = none)
    (value : V) (ttl now created : Int) :
    AddWithTTL c key value ttl now created = (evictBack c).bind (fun c1 =>
      pushFront c1 { Key := key, Value := value, Created := created,
                     Expiration := deadline c.defaultExpiration ttl now }) := by
  unfold AddWithTTL
  rw [habs]
  cases evictBack c <;> simp

/-- The effect of the eviction block followed by the push of a record whose key
is not indexed. -/
theorem insert_spec {c : Cache K V} (h : Inv c) (hcap : 1 ≤ c.capacity) (item : Items K V)
    (habs : mapGet c.items item.Key = none) :
    ∃ c2, (evictBack c).bind (fun c1 => pushFront c1 item) = some c2 ∧ Inv c2 ∧
      c2.capacity = c.capacity ∧
      c2.evictList = { addr := c.nextAddr, Value := item } ::
        (if (c.evictList.length : Int) ≥ c.capacity then c.evictList.dropLast
         else c.evictList) ∧
      (∀ k', mapGet c2.items k' =
        if k' = item.Key then some { addr := c.nextAddr, Value := item }
        else if (c.evictList.length : Int) ≥ c.capacity ∧ backKey c = some k' then none
        else mapGet c.items k') := by
  by_cases hge : (c.evictList.length : Int) ≥ c.capacity
  · obtain ⟨last, hb, hmem, hev⟩ := evictBack_of_ge hcap hge
    have hg := Inv_listed_get h hmem
    have hinv1 := Inv_unlink h hg
    have hlen := unlink_length h hg
    have hbound := h.2.2.2.2.2.2
    have habs1 : mapGet (mapDelete c.items last.Value.Key) item.Key = none := by
      rw [mapGet_mapDelete, habs]
      simp
    obtain ⟨c2, hpf, hinv2⟩ := Inv_pushFront hinv1 (by simp only; omega) item habs1
    have hpf2 := pushFront_eq hinv1.1 item
    rw [hpf] at hpf2
    cases hpf2
    refine ⟨_, by rw [hev]; exact hpf, hinv2, rfl, ?_, ?_⟩
    · simp only [hge, if_true, listRemove_back h.2.2.1 hb]
    · intro k'
      simp only [mapGet_mapSet, mapGet_mapDelete, hge, true_and, backKey, hb, Option.map_some',
        Option.some.injEq]
      by_cases hk1 : k' = item.Key
      · simp [hk1]
      · by_cases hk2 : k' = last.Value.Key
        · simp [hk1, hk2]
        · have hk3 : ¬ last.Value.Key = k' := fun hh => hk2 hh.symm
          simp [hk1, hk2, hk3]
  · have hlt : (c.evictList.length : Int) < c.capacity := by omega
    obtain ⟨c2, hpf, hinv2⟩ := Inv_pushFront h hlt item habs
    have hpf2 := pushFront_eq h.1 item
    rw [hpf] at hpf2
    cases hpf2
    refine ⟨_, by rw [evictBack_of_lt hlt]; exact hpf, hinv2, rfl, ?_, ?_⟩
    · simp only [hge, if_false]
    · intro k'
      simp only [mapGet_mapSet, hge, false_and, if_false]

theorem evictBack_some {c : Cache K V} (hcap : 1 ≤ c.capacity) :
    ∃ c1, evictBack c = some c1 ∧ c1.itemsNil = c.itemsNil := by
  by_cases hge : (c.evictList.length : Int) ≥ c.capacity
  · obtain ⟨last, _, _, hev⟩ := evictBack_of_ge hcap hge
    exact ⟨_, hev, rfl⟩
  · exact ⟨c, evictBack_of_lt (by omega), rfl⟩

/-- With a positive capacity and an allocated index the eviction block followed
by the push succeeds, and the pushed record is then the front node and the one
indexed under its key. -/
theorem insert_lookup {c : Cache K V} (hcap : 1 ≤ c.capacity) (hnil : c.itemsNil = false)
    (item : Items K V) :
    ∃ c2 e, (evictBack c).bind (fun c1 => pushFront c1 item) = some c2 ∧
      mapGet c2.items item.Key = some e ∧ c2.evictList.head? = some e ∧ e.Value = item := by
  obtain ⟨c1, hev, hnil1⟩ := evictBack_some hcap
  rw [hnil] at hnil1
  refine ⟨{ c1 with
      evictList := { addr := c1.nextAddr, Value := item } :: c1.evictList
      items := mapSet c1.items item.Key { addr := c1.nextAddr, Value := item }
      nextAddr := c1.nextAddr + 1 }, { addr := c1.nextAddr, Value := item }, ?_, ?_, ?_, rfl⟩
  · rw [hev]
    exact pushFront_eq hnil1 item
  · simp [mapGet_mapSet]
  · simp

theorem wrapInt64_of_range {x : Int} (h1 : -2 ^ 63 ≤ x) (h2 : x < 2 ^ 63) :
    wrapInt64 x = x := by
  unfold wrapInt64
  omega

theorem isExpired_iff (now : Int) (it : Items K V) :
    isExpired now it = true ↔ it.Expiration > 0 ∧ it.Expiration < now := by
  simp only [isExpired, Bool.and_eq_true, decide_eq_true_eq]
  constructor
  · rintro ⟨h1, h2⟩
    exact ⟨h2, h1⟩
  · rintro ⟨h1, h2⟩
    exact ⟨h2, h1⟩

/-- A key that is not indexed makes `cleanItems` panic, whatever follows it. -/
theorem cleanItems_absent {c : Cache K V} {k : K} (rest : List K)
    (h : mapGet c.items k = none) : cleanItems c (k :: rest) = none := by
  simp [cleanItems, h]

/-! ### Facts that hold in every state -/

theorem evictBack_fields {c c1 : Cache K V} (h : evictBack c = some c1) :
    c1.capacity = c.capacity ∧ c1.itemsNil = c.itemsNil ∧
      c1.defaultExpiration = c.defaultExpiration ∧
      c1.cleanupInterval = c.cleanupInterval := by
  unfold evictBack at h
  split at h
  · split at h
    · cases h
    · cases h
      exact ⟨rfl, rfl, rfl, rfl⟩
  · cases h
    exact ⟨rfl, rfl, rfl, rfl⟩

theorem pushFront_fields {c c1 : Cache K V} {item : Items K V}
    (h : pushFront c item = some c1) :
    c1.capacity = c.capacity ∧ c1.itemsNil = false ∧
      c1.defaultExpiration = c.defaultExpiration ∧
      c1.cleanupInterval = c.cleanupInterval := by
  unfold pushFront at h
  split at h
  · cases h
  · rename_i hnil
    cases h
    exact ⟨rfl, by simpa using hnil, rfl, rfl⟩

theorem cleanItems_fields (keys : List K) : ∀ {c c1 : Cache K V},
    cleanItems c keys = some c1 →
    c1.capacity = c.capacity ∧ c1.itemsNil = c.itemsNil ∧
      c1.defaultExpiration = c.defaultExpiration ∧
      c1.cleanupInterval = c.cleanupInterval := by
  induction keys with
  | nil =>
    intro c c1 h
    cases h
    exact ⟨rfl, rfl, rfl, rfl⟩
  | cons k rest ih =>
    intro c c1 h
    unfold cleanItems at h
    split at h
    · cases h
    · have hh := @ih _ c1 h
      exact hh

/-- No operation changes the capacity, the default expiration or the cleanup
interval, and none leaves an allocated index nil. -/
theorem step_fields {c c1 : Cache K V} {op : Op K V} (h : step c op = some c1) :
    c1.capacity = c.capacity ∧ (c.itemsNil = false → c1.itemsNil = false) ∧
      c1.defaultExpiration = c.defaultExpiration ∧
      c1.cleanupInterval = c.cleanupInterval := by
  cases op with
  | add key value now =>
    simp only [step, Add] at h
    split at h
    · cases h
      exact ⟨rfl, id, rfl, rfl⟩
    · split at h
      · cases h
      · rename_i c0 hev
        obtain ⟨a1, _, a3, a4⟩ := evictBack_fields hev
        obtain ⟨b1, b2, b3, b4⟩ := pushFront_fields h
        exact ⟨b1.trans a1, fun _ => b2, b3.trans a3, b4.trans a4⟩
  | addWithTTL key value ttl now created =>
    simp only [step, AddWithTTL] at h
    split at h
    · cases h
      exact ⟨rfl, id, rfl, rfl⟩
    · split at h
      · cases h
      · rename_i c0 hev
        obtain ⟨a1, _, a3, a4⟩ := evictBack_fields hev
        obtain ⟨b1, b2, b3, b4⟩ := pushFront_fields h
        exact ⟨b1.trans a1, fun _ => b2, b3.trans a3, b4.trans a4⟩
  | get key =>
    simp only [step, Option.some.injEq] at h
    subst h
    unfold Get
    split <;> exact ⟨rfl, id, rfl, rfl⟩
  | remove key =>
    simp only [step, Option.some.injEq] at h
    subst h
    unfold Remove
    split <;> exact ⟨rfl, id, rfl, rfl⟩
  | clear =>
    simp only [step, Option.some.injEq] at h
    subst h
    exact ⟨rfl, fun _ => rfl, rfl, rfl⟩
  | getAll =>
    simp only [step, Option.some.injEq] at h
    subst h
    exact ⟨rfl, id, rfl, rfl⟩
  | sweep now =>
    simp only [step, sweep_eq_cleanItems] at h
    obtain ⟨a1, a2, a3, a4⟩ := cleanItems_fields _ h
    exact ⟨a1, fun hh => a2.trans hh, a3, a4⟩

theorem run_fields (ops : List (Op K V)) : ∀ {c c1 : Cache K V}, run c ops = some c1 →
    c1.capacity = c.capacity ∧ (c.itemsNil = false → c1.itemsNil = false) ∧
      c1.defaultExpiration = c.defaultExpiration ∧
      c1.cleanupInterval = c.cleanupInterval := by
  induction ops with
  | nil =>
    intro c c1 h
    cases h
    exact ⟨rfl, id, rfl, rfl⟩
  | cons op rest ih =>
    intro c c1 h
    unfold run at h
    split at h
    · cases h
    · rename_i c0 hs
      obtain ⟨a1, a2, a3, a4⟩ := step_fields hs
      obtain ⟨b1, b2, b3, b4⟩ := ih h
      exact ⟨b1.trans a1, fun hh => b2 (a2 hh), b3.trans a3, b4.trans a4⟩

theorem run_append (c : Cache K V) (ops1 ops2 : List (Op K V)) :
    run c (ops1 ++ ops2) = (run c ops1).bind (fun c1 => run c1 ops2) := by
  induction ops1 generalizing c with
  | nil => simp [run]
  | cons op rest ih =>
    simp only [List.cons_append, run]
    cases step c op with
    | none => simp
    | some c1 => simpa using ih c1

/-- A state reached from `New` with a positive capacity satisfies the
invariant. -/
theorem reachable_Inv {d i n : Int} (hn : 1 ≤ n) {ops : List (Op K V)} {c : Cache K V}
    (h : run (New d i n : Cache K V) ops = some c) : Inv c ∧ c.capacity = n := by
  obtain ⟨c1, hrun, hinv, hcap⟩ :=
    Inv_run ops (Inv_New d i n (by omega) : Inv (New d i n : Cache K V)) hn
  rw [h] at hrun
  cases hrun
  exact ⟨hinv, hcap⟩

/-! ### Lookup after insertion -/

theorem Get_hit_state {c : Cache K V} (h : Inv c) {k : K} {e : Element K V}
    (hg : mapGet c.items k = some e) :
    (Get c k).2 = { c with
      evictList := e :: c.evictList.filter (fun x => decide (x.Value.Key ≠ k)) } := by
  rw [Get_hit hg, moveToFront_of_mem h.2.2.1 (Inv_indexed_get h hg).1,
    listRemove_eq_filter_key h hg]

theorem evictBack_eq_none_iff (c : Cache K V) :
    evictBack c = none ↔ c.evictList = [] ∧ c.capacity ≤ 0 := by
  unfold evictBack back
  cases hl : c.evictList with
  | nil =>
    by_cases hc : c.capacity ≤ 0
    · simp [hc]
    · have : ¬ ((0 : Int) ≥ c.capacity) := by omega
      simp [hc, this]
  | cons x rest =>
    have hne : (x :: rest).getLast? ≠ none := by simp
    cases hb : (x :: rest).getLast? with
    | none => exact absurd hb hne
    | some b => split <;> simp

/-- With an allocated index, the eviction block followed by the push panics
exactly on the empty list with a capacity that is not positive. -/
theorem insert_eq_none_iff {c : Cache K V} (hnil : c.itemsNil = false) (item : Items K V) :
    (evictBack c).bind (fun c1 => pushFront c1 item) = none ↔
      c.evictList = [] ∧ c.capacity ≤ 0 := by
  rw [← evictBack_eq_none_iff]
  cases hev : evictBack c with
  | none => simp
  | some c1 =>
    have hn1 : c1.itemsNil = false := (evictBack_fields hev).2.1.trans hnil
    simp [pushFront_eq hn1 item]

/-- After a hit on `k` in a list of at least two nodes the back node is not the
node of `k`. -/
theorem back_after_get {c : Cache K V} (h : Inv c) {k : K} {e : Element K V}
    (hg : mapGet c.items k = some e) (hlen : 2 ≤ c.evictList.length) :
    ∃ b, back (Get c k).2.evictList = some b ∧ b ∈ c.evictList ∧ b.Value.Key ≠ k := by
  rw [Get_hit_state h hg]
  have hl := listRemove_length h.2.2.1 (Inv_indexed_get h hg).1
  rw [listRemove_eq_filter_key h hg] at hl
  have hne : c.evictList.filter (fun x => decide (x.Value.Key ≠ k)) ≠ [] := by
    intro h0
    rw [h0] at hl
    simp at hl
    omega
  obtain ⟨b, hb, hmem⟩ := back_of_ne_nil hne
  refine ⟨b, ?_, (List.mem_filter.mp hmem).1, by simpa using (List.mem_filter.mp hmem).2⟩
  simp only [back] at hb ⊢
  rw [List.getLast?_cons]
  rw [hb]
  rfl

/-- A hit on `k` followed by the admission of another key: `k` stays indexed,
and when the list was full the node at the back after the hit is the one that
goes. -/
theorem get_then_insert {c : Cache K V} (h : Inv c) (hcap : 2 ≤ c.capacity) {k : K}
    {e : Element K V} (hg : mapGet c.items k = some e) (item : Items K V)
    (habs : mapGet c.items item.Key = none) :
    ∃ c2, (evictBack (Get c k).2).bind (fun c1 => pushFront c1 item) = some c2 ∧
      (Get c2 k).1 = (some e.Value.Value, true) ∧
      ((c.evictList.length : Int) ≥ c.capacity →
        ∃ b, back (Get c k).2.evictList = some b ∧ b.Value.Key ≠ k ∧
          mapGet c2.items b.Value.Key = none ∧
          entries c2 = item :: (entries (Get c k).2).dropLast) := by
  have hinv1 := Inv_Get h k
  have hst := Get_hit_state h hg
  have hitems : (Get c k).2.items = c.items := by rw [hst]
  have hcap1 : (Get c k).2.capacity = c.capacity := by rw [hst]
  have hlen1 : (Get c k).2.evictList.length = c.evictList.length := by
    have hl := listRemove_length h.2.2.1 (Inv_indexed_get h hg).1
    rw [listRemove_eq_filter_key h hg] at hl
    rw [hst]
    simpa using hl
  have habs1 : mapGet (Get c k).2.items item.Key = none := by rw [hitems]; exact habs
  obtain ⟨c2, hins, _, _, hl2, hm2⟩ := insert_spec hinv1 (by omega) item habs1
  have hkne : k ≠ item.Key := by
    intro hh
    rw [hh, habs] at hg
    cases hg
  have hback : (c.evictList.length : Int) ≥ c.capacity →
      ∃ b, back (Get c k).2.evictList = some b ∧ b ∈ c.evictList ∧ b.Value.Key ≠ k := by
    intro hfull
    exact back_after_get h hg (by omega)
  refine ⟨c2, hins, ?_, ?_⟩
  · have hgk : mapGet c2.items k = some e := by
      rw [hm2 k, if_neg hkne, hitems, hcap1, hlen1]
      by_cases hfull : (c.evictList.length : Int) ≥ c.capacity
      · obtain ⟨b, hb, _, hbk⟩ := hback hfull
        have : ¬ (backKey (Get c k).2 = some k) := by
          simp only [backKey, hb, Option.map_some', Option.some.injEq]
          exact hbk
        simp [this, hg]
      · simp [hfull, hg]
    rw [Get_hit hgk]
  · intro hfull
    obtain ⟨b, hb, hbmem, hbk⟩ := hback hfull
    refine ⟨b, hb, hbk, ?_, ?_⟩
    · have hbne : b.Value.Key ≠ item.Key := by
        intro hh
        have := Inv_listed_get h hbmem
        rw [hh, habs] at this
        cases this
      rw [hm2 b.Value.Key, if_neg hbne, hcap1, hlen1]
      simp [hfull, backKey, hb]
    · rw [entries, hl2, hcap1, hlen1, if_pos hfull]
      simp [entries]

/-! ### The snapshot of `GetAll` -/

theorem snapGet_filter (acc : List (K × Items K V)) (a k : K) :
    snapGet (acc.filter (fun q => decide (q.1 ≠ a))) k =
      if k = a then none else snapGet acc k := by
  induction acc with
  | nil => simp [snapGet]
  | cons p rest ih =>
    obtain ⟨b, it⟩ := p
    by_cases hb : b = a
    · have hf : List.filter (fun q => decide (q.1 ≠ a)) ((b, it) :: rest) =
          List.filter (fun q => decide (q.1 ≠ a)) rest := by
        simp [List.filter_cons, hb]
      rw [hf, ih]
      by_cases hk : k = a
      · simp [hk]
      · have hbk : ¬ b = k := fun hh => hk (hh ▸ hb)
        simp [hk, snapGet, hbk]
    · have hf : List.filter (fun q => decide (q.1 ≠ a)) ((b, it) :: rest) =
          (b, it) :: List.filter (fun q => decide (q.1 ≠ a)) rest := by
        simp [List.filter_cons, hb]
      rw [hf]
      simp only [snapGet, ih]
      by_cases hbk : b = k
      · have hk : ¬ k = a := fun hh => hb (hbk.trans hh)
        simp [hbk, hk]
      · simp [hbk]

/-- Ranging over an index without repeated keys and assigning into the snapshot
gives, under every key, the record of the indexed node. -/
theorem snapGet_foldl (m : List (K × Element K V)) :
    ∀ (acc : List (K × Items K V)) (k : K), (m.map Prod.fst).Nodup →
    snapGet (m.foldl (fun acc p =>
        (p.1, p.2.Value) :: acc.filter (fun q => decide (q.1 ≠ p.1))) acc) k =
      match mapGet m k with
      | some e => some e.Value
      | none => snapGet acc k := by
  induction m with
  | nil =>
    intro acc k _
    simp [mapGet]
  | cons p rest ih =>
    intro acc k hnd
    obtain ⟨a, e⟩ := p
    simp only [List.map_cons, List.nodup_cons] at hnd
    simp only [List.foldl_cons]
    rw [ih _ k hnd.2]
    by_cases hak : a = k
    · subst hak
      have hnone : mapGet rest a = none := by
        rw [mapGet_eq_none_iff]
        intro q hq hqa
        exact hnd.1 (List.mem_map.mpr ⟨q, hq, hqa⟩)
      simp [mapGet, hnone, snapGet]
    · have hka : ¬ k = a := fun hh => hak hh.symm
      simp only [mapGet, hak, if_false, snapGet, snapGet_filter, hka]

theorem snapGet_GetAll {c : Cache K V} (h : (c.items.map Prod.fst).Nodup) (k : K) :
    snapGet (GetAll c) k = (mapGet c.items k).map Element.Value := by
  unfold GetAll
  rw [snapGet_foldl c.items [] k h]
  cases mapGet c.items k <;> simp [snapGet]

theorem GetAll_foldl_eq (m : List (K × Element K V)) :
    ∀ (acc : List (K × Items K V)), (m.map Prod.fst).Nodup →
    (∀ p ∈ m, ∀ q ∈ acc, q.1 ≠ p.1) →
    m.foldl (fun acc p =>
        (p.1, p.2.Value) :: acc.filter (fun q => decide (q.1 ≠ p.1))) acc =
      (m.map (fun p => (p.1, p.2.Value))).reverse ++ acc := by
  induction m with
  | nil =>
    intro acc _ _
    simp
  | cons p rest ih =>
    intro acc hnd hdis
    simp only [List.map_cons, List.nodup_cons] at hnd
    have hfil : acc.filter (fun q => decide (q.1 ≠ p.1)) = acc := by
      apply List.filter_eq_self.mpr
      intro q hq
      simpa using hdis p (List.mem_cons_self _ _) q hq
    simp only [List.foldl_cons, hfil]
    rw [ih _ hnd.2]
    · simp
    · intro p' hp' q hq
      rcases List.mem_cons.mp hq with rfl | hq
      · intro hh
        exact hnd.1 (List.mem_map.mpr ⟨p', hp', hh.symm⟩)
      · exact hdis p' (List.mem_cons_of_mem _ hp') q hq

theorem GetAll_eq {c : Cache K V} (h : (c.items.map Prod.fst).Nodup) :
    GetAll c = (c.items.map (fun p => (p.1, p.2.Value))).reverse := by
  unfold GetAll
  rw [GetAll_foldl_eq c.items [] h (fun _ _ q hq => by simp at hq)]
  simp

theorem GetAll_keys {c : Cache K V} (h : (c.items.map Prod.fst).Nodup) :
    (GetAll c).map Prod.fst = (c.items.map Prod.fst).reverse := by
  rw [GetAll_eq h, List.map_reverse, List.map_map]
  rfl

/-- A sweep leaves in place every indexed node whose record has no deadline. -/
theorem sweep_keeps_immune {c : Cache K V} (h : Inv c) {k : K} {e : Element K V}
    (hg : mapGet c.items k = some e) (hexp : e.Value.Expiration = 0) (now : Int) :
    ∃ c2, sweep c now = some c2 ∧ mapGet c2.items k = some e ∧ e ∈ c2.evictList := by
  obtain ⟨c2, hs, hinv2, _⟩ := Inv_sweep h now
  have hs2 := hs
  rw [sweep_eq_cleanItems, cleanItems_expired h now (List.Perm.refl _)] at hs2
  cases hs2
  have hne : isExpired now e.Value = false := by
    simp [isExpired, hexp]
  have hmem : (k, e) ∈ c.items.filter (fun p => !isExpired now p.2.Value) :=
    List.mem_filter.mpr ⟨mapGet_mem hg, by simp [hne]⟩
  have hg2 := mapGet_of_mem hinv2.2.1 hmem
  exact ⟨_, hs, hg2, (Inv_indexed_get hinv2 hg2).1⟩

/-! ### The scenario of `main` -/

theorem main_run (t1 t2 t3 t4 t5 t0 t0c : Int) :
    run (New (5 * second) (10 * second) 3 : Cache Nat String)
      (mainOps t1 t2 t3 t4 t5 t0 t0c) =
      some (mainState t4 t5 t0c (deadline (5 * second) 0 t0)) :=
  rfl

theorem main_deadline {t0 : Int} (h0 : 0 ≤ t0) (hr : t0 + 5 * second < 2 ^ 63) :
    deadline (5 * second) 0 t0 = t0 + 5 * second := by
  have hpos : (5 : Int) * second > 0 := by decide
  simp only [deadline, if_true, hpos]
  apply wrapInt64_of_range
  · have : (5 : Int) * second = 5000000000 := by decide
    omega
  · exact hr

theorem main_sweep (t4 t5 t0c exp ts : Int) (hpos : exp > 0) (hs : exp < ts) :
    sweep (mainState t4 t5 t0c exp) ts = some
      { mainState t4 t5 t0c exp with
        items := [(5, ⟨4, ⟨5, "you", t5, 0⟩⟩), (4, ⟨3, ⟨4, "are", t4, 0⟩⟩)]
        evictList := [⟨4, ⟨5, "you", t5, 0⟩⟩, ⟨3, ⟨4, "are", t4, 0⟩⟩] } := by
  have hkeys : expiredKeys (mainState t4 t5 t0c exp) ts = [6] := by
    simp [expiredKeys, mainState, isExpired, hpos, hs, List.filter_cons]
  simp only [sweep, hkeys]
  rfl

theorem main_lookups (t4 t5 t0c exp : Int) :
    run (mainState t4 t5 t0c exp) mainLookups = some
      { mainState t4 t5 t0c exp with
        evictList := [⟨3, ⟨4, "are", t4, 0⟩⟩, ⟨5, ⟨6, "ok", t0c, exp⟩⟩,
                      ⟨4, ⟨5, "you", t5, 0⟩⟩] } :=
  rfl

theorem main_lookups_sweep (t4 t5 t0c exp ts : Int) (hpos : exp > 0) (hs : exp < ts) :
    sweep { mainState t4 t5 t0c exp with
        evictList := [⟨3, ⟨4, "are", t4, 0⟩⟩, ⟨5, ⟨6, "ok", t0c, exp⟩⟩,
                      ⟨4, ⟨5, "you", t5, 0⟩⟩] } ts = some
      { mainState t4 t5 t0c exp with
        items := [(5, ⟨4, ⟨5, "you", t5, 0⟩⟩), (4, ⟨3, ⟨4, "are", t4, 0⟩⟩)]
        evictList := [⟨3, ⟨4, "are", t4, 0⟩⟩, ⟨4, ⟨5, "you", t5, 0⟩⟩] } := by
  have hkeys : expiredKeys { mainState t4 t5 t0c exp with
        evictList := [⟨3, ⟨4, "are", t4, 0⟩⟩, ⟨5, ⟨6, "ok", t0c, exp⟩⟩,
                      ⟨4, ⟨5, "you", t5, 0⟩⟩] } ts = [6] := by
    simp [expiredKeys, mainState, isExpired, hpos, hs, List.filter_cons]
  simp only [sweep, hkeys]
  rfl

/-! ### Filling a new cache -/

/-- Pushing in front of the first `N` elements, after dropping the last of them
when there are `N` already, gives the first `N` elements of the longer list. -/
theorem cons_take_step {α : Type} (x : α) (L : List α) (N : Nat) (hN : 1 ≤ N) :
    x :: (if N ≤ (L.take N).length then (L.take N).dropLast else L.take N) =
      (x :: L).take N := by
  rw [List.take_cons (by omega)]
  congr 1
  by_cases h : N ≤ L.length
  · have hlen : (L.take N).length = N := by
      rw [List.length_take]
      omega
    rw [if_pos (by omega), List.dropLast_eq_take, List.take_take, hlen]
    congr 1
    omega
  · have hlen : (L.take N).length = L.length := by
      rw [List.length_take]
      omega
    rw [if_neg (by omega), List.take_of_length_le (by omega),
      List.take_of_length_le (by omega)]

theorem addOps_append (kvs : List (K × V × Int)) (p : K × V × Int) :
    addOps (kvs ++ [p]) = addOps kvs ++ [Op.add p.1 p.2.1 p.2.2] := by
  simp [addOps]

theorem run_single (c : Cache K V) (op : Op K V) : run c [op] = step c op := by
  simp only [run]
  cases step c op <;> rfl

/-- Under the invariant a key is indexed exactly when a record of the recency
list carries it. -/
theorem Inv_indexed_iff {c : Cache K V} (h : Inv c) (k : K) :
    (mapGet c.items k).isSome ↔ k ∈ (entries c).map Items.Key := by
  constructor
  · intro hk
    obtain ⟨e, hg⟩ := Option.isSome_iff_exists.mp hk
    obtain ⟨hin, hkey⟩ := Inv_indexed_get h hg
    exact List.mem_map.mpr ⟨e.Value, List.mem_map.mpr ⟨e, hin, rfl⟩, hkey⟩
  · intro hk
    obtain ⟨it, hit, hkey⟩ := List.mem_map.mp hk
    obtain ⟨e, he, rfl⟩ := List.mem_map.mp hit
    rw [← hkey, Inv_listed_get h he]
    rfl

/-- Adding pairwise different keys to the cache that `New` returns: the run
succeeds and the recency list holds the first `n` of the records built, newest
first. -/
theorem fill_spec (d i n : Int) (hn : 1 ≤ n) (kvs : List (K × V × Int)) :
    (kvs.map (fun p => p.1)).Nodup →
    ∃ c, run (New d i n : Cache K V) (addOps kvs) = some c ∧ Inv c ∧ c.capacity = n ∧
      entries c = ((kvs.map addedItem).reverse).take n.toNat := by
  induction kvs using List.reverseRecOn with
  | nil =>
    intro _
    exact ⟨New d i n, rfl, Inv_New d i n (by omega), rfl, by simp [entries, New]⟩
  | append_singleton init p ih =>
    intro hnd
    rw [List.map_append, List.nodup_append] at hnd
    obtain ⟨hnd1, _, hdis⟩ := hnd
    obtain ⟨c, hrun, hinv, hcap, hent⟩ := ih hnd1
    have hfresh : p.1 ∉ init.map (fun q => q.1) := fun hh => hdis hh (by simp)
    have habs : mapGet c.items p.1 = none := by
      cases hg : mapGet c.items p.1 with
      | none => rfl
      | some e =>
        exfalso
        have hk := (Inv_indexed_iff hinv p.1).mp (by simp [hg])
        rw [hent] at hk
        obtain ⟨it, hit, hkey⟩ := List.mem_map.mp hk
        have hit2 := List.mem_reverse.mp (List.mem_of_mem_take hit)
        obtain ⟨q, hq, rfl⟩ := List.mem_map.mp hit2
        exact hfresh (List.mem_map.mpr ⟨q, hq, hkey⟩)
    obtain ⟨c2, hins, hinv2, hcap2, hl2, _⟩ := insert_spec hinv (by omega) (addedItem p) habs
    have hadd : Add c p.1 p.2.1 p.2.2 = some c2 := (Add_of_absent habs _ _).trans hins
    refine ⟨c2, ?_, hinv2, hcap2.trans hcap, ?_⟩
    · rw [addOps_append, run_append, hrun]
      simp only [Option.some_bind, run_single, step]
      exact hadd
    · have hlen : c.evictList.length = (entries c).length := by simp [entries]
      have hcond : ((c.evictList.length : Int) ≥ c.capacity) ↔
          n.toNat ≤ (((init.map addedItem).reverse).take n.toNat).length := by
        rw [hlen, hent, hcap]
        omega
      have hstep := cons_take_step (addedItem p) ((init.map addedItem).reverse) n.toNat
        (by omega)
      simp only [entries, hl2, List.map_cons]
      rw [List.map_append, List.reverse_append]
      simp only [List.map_cons, List.map_nil, List.reverse_cons, List.reverse_nil,
        List.nil_append, List.singleton_append]
      rw [← hstep, ← hent]
      by_cases hge : (c.evictList.length : Int) ≥ c.capacity
      · rw [if_pos hge, if_pos (by rw [hent]; exact hcond.mp hge)]
        simp [entries]
      · rw [if_neg hge, if_neg (by rw [hent]; exact fun hh => hge (hcond.mpr hh))]
        simp [entries]

end Lemmas

section Claims

variable {K V : Type} [DecidableEq K]

/-- C1: in a state satisfying the invariant with capacity at least 1, `Add` and
`AddWithTTL` of a key that is not indexed succeed; the recency list afterwards is
the new record followed by the old list, the old list having lost its back record
exactly when its length was at least the capacity; a key is indexed afterwards
exactly when it is the new key or it was indexed before and is not the key of the
dropped back record; the new key is at the front; and when the old length equals
the capacity so does the new length. -/
theorem C1_insert_new_key (c : Cache K V) (h : Inv c) (hcap : 1 ≤ c.capacity) (k : K) (v : V)
    (ttl now created : Int) (habs : mapGet c.items k = none) :
    ∃ c1 c2, Add c k v now = some c1 ∧ AddWithTTL c k v ttl now created = some c2 ∧
      entries c1 = { Key := k, Value := v, Created := now, Expiration := 0 } ::
        (if (c.evictList.length : Int) ≥ c.capacity then (entries c).dropLast
         else entries c) ∧
      entries c2 = { Key := k, Value := v, Created := created,
                     Expiration := deadline c.defaultExpiration ttl now } ::
        (if (c.evictList.length : Int) ≥ c.capacity then (entries c).dropLast
         else entries c) ∧
      (∀ k', (mapGet c1.items k').isSome ↔ (k' = k ∨ ((mapGet c.items k').isSome ∧
        ¬ ((c.evictList.length : Int) ≥ c.capacity ∧ backKey c = some k')))) ∧
      (∀ k', (mapGet c2.items k').isSome ↔ (k' = k ∨ ((mapGet c.items k').isSome ∧
        ¬ ((c.evictList.length : Int) ≥ c.capacity ∧ backKey c = some k')))) ∧
      (entries c1).head?.map Items.Key = some k ∧
      (entries c2).head?.map Items.Key = some k ∧
      ((c.evictList.length : Int) = c.capacity →
        (c1.evictList.length : Int) = c.capacity ∧
        (c2.evictList.length : Int) = c.capacity) := by
  obtain ⟨c1, hc1, _, _, hl1, hm1⟩ := insert_spec h hcap
    { Key := k, Value := v, Created := now, Expiration := 0 } habs
  obtain ⟨c2, hc2, _, _, hl2, hm2⟩ := insert_spec h hcap
    { Key := k, Value := v, Created := created,
      Expiration := deadline c.defaultExpiration ttl now } habs
  have hidx : ∀ (cx : Cache K V) (e : Element K V),
      (∀ k', mapGet cx.items k' = if k' = k then some e
        else if (c.evictList.length : Int) ≥ c.capacity ∧ backKey c = some k' then none
        else mapGet c.items k') →
      ∀ k', (mapGet cx.items k').isSome ↔ (k' = k ∨ ((mapGet c.items k').isSome ∧
        ¬ ((c.evictList.length : Int) ≥ c.capacity ∧ backKey c = some k'))) := by
    intro cx e hm k'
    rw [hm k']
    by_cases hk : k' = k
    · simp [hk]
    · by_cases hb : (c.evictList.length : Int) ≥ c.capacity ∧ backKey c = some k'
      · simp [hk, hb]
      · simp [hk, hb]
  have hlen : ∀ (cx : Cache K V) (e : Element K V),
      cx.evictList = e :: (if (c.evictList.length : Int) ≥ c.capacity then c.evictList.dropLast
         else c.evictList) →
      (c.evictList.length : Int) = c.capacity → (cx.evictList.length : Int) = c.capacity := by
    intro cx e hl heq
    have hge : (c.evictList.length : Int) ≥ c.capacity := by omega
    rw [hl, if_pos hge]
    simp only [List.length_cons, List.length_dropLast]
    omega
  refine ⟨c1, c2, (Add_of_absent habs v now).trans hc1,
    (AddWithTTL_of_absent habs v ttl now created).trans hc2, ?_, ?_,
    hidx c1 _ hm1, hidx c2 _ hm2, ?_, ?_, fun heq => ⟨hlen c1 _ hl1 heq, hlen c2 _ hl2 heq⟩⟩
  · simp only [entries, hl1, List.map_cons]
    split <;> simp
  · simp only [entries, hl2, List.map_cons]
    split <;> simp
  · simp [entries, hl1]
  · simp [entries, hl2]

/-- C1, instance: adding key 3 to the full cache of capacity 2 drops key 1 from
the back and puts key 3 in front of key 2. -/
theorem C1_insert_new_key_witness :
    Inv demoFull ∧ 1 ≤ demoFull.capacity ∧ mapGet demoFull.items 3 = none ∧
    (Add demoFull 3 30 102).map entries = some [⟨3, 30, 102, 0⟩, ⟨2, 20, 101, 0⟩] := by
  have hinv : Inv demoFull := by unfold Inv; decide
  obtain ⟨c1, c2, h1, _, h3, _⟩ :=
    C1_insert_new_key demoFull hinv (by decide) 3 30 0 102 103 (by decide)
  refine ⟨hinv, by decide, by decide, ?_⟩
  rw [h1, Option.map_some', h3]
  decide

/-- C2: from `New` with capacity at least 1 every finite sequence of `Add`,
`AddWithTTL`, `Get`, `Remove`, `Clear`, `GetAll` and complete sweeps runs without
a panic, and in the state it reaches (hence after each operation, every prefix
being such a sequence) the index and the recency list have the same size, the
size is at most the capacity, every indexed key refers to a node of the list
whose record carries that key, every indexed key occurs exactly once among the
keys of the list, every node of the list is the one indexed under its key, and
no key occurs twice in the list. -/
theorem C2_representation_invariant (d i n : Int) (hn : 1 ≤ n) (ops : List (Op K V)) :
    ∃ c, run (New d i n : Cache K V) ops = some c ∧
      c.items.length = c.evictList.length ∧
      (c.evictList.length : Int) ≤ c.capacity ∧
      c.capacity = n ∧
      (∀ k e, mapGet c.items k = some e → e ∈ c.evictList ∧ e.Value.Key = k) ∧
      (∀ k, (mapGet c.items k).isSome →
        (c.evictList.map (fun e => e.Value.Key)).count k = 1) ∧
      (∀ e ∈ c.evictList, mapGet c.items e.Value.Key = some e) ∧
      (c.evictList.map (fun e => e.Value.Key)).Nodup := by
  obtain ⟨c, hrun, hinv, hcap⟩ :=
    Inv_run ops (Inv_New d i n (by omega) : Inv (New d i n : Cache K V)) hn
  refine ⟨c, hrun, Inv_length_eq hinv, hinv.2.2.2.2.2.2, hcap,
    fun k e hg => Inv_indexed_get hinv hg, ?_, fun e he => Inv_listed_get hinv he,
    Inv_list_keys_nodup hinv⟩
  intro k hk
  obtain ⟨e, hg⟩ := Option.isSome_iff_exists.mp hk
  obtain ⟨hin, hkey⟩ := Inv_indexed_get hinv hg
  apply List.count_eq_one_of_mem (Inv_list_keys_nodup hinv)
  exact List.mem_map.mpr ⟨e, hin, hkey⟩

/-- C2, instance: the run `demoOps` from `New 40 100 3`. -/
theorem C2_representation_invariant_witness :
    (1 : Int) ≤ 3 ∧
    ∃ c, run (New 40 100 3 : Cache Nat Nat) demoOps = some c ∧
      c.items.length = c.evictList.length ∧
      (c.evictList.length : Int) ≤ c.capacity ∧
      c.capacity = 3 ∧
      (∀ k e, mapGet c.items k = some e → e ∈ c.evictList ∧ e.Value.Key = k) ∧
      (∀ k, (mapGet c.items k).isSome →
        (c.evictList.map (fun e => e.Value.Key)).count k = 1) ∧
      (∀ e ∈ c.evictList, mapGet c.items e.Value.Key = some e) ∧
      (c.evictList.map (fun e => e.Value.Key)).Nodup :=
  ⟨by decide, C2_representation_invariant 40 100 3 (by decide) demoOps⟩

/-- C3: under the invariant `Get(k)` reports `found = true` exactly when `k` is
indexed; when the recency list holds a record for `k` the result is that
record's value with `true`, whatever the record's `Expiration` is and whatever
the clock reads (also when the deadline is in the past at `now`); when `k` is
not indexed the result is `(nil, false)`. -/
theorem C3_get_result (c : Cache K V) (h : Inv c) (k : K) :
    ((Get c k).1.2 = true ↔ (mapGet c.items k).isSome) ∧
    (∀ it ∈ entries c, it.Key = k → (Get c k).1 = (some it.Value, true)) ∧
    (∀ now : Int, ∀ it ∈ entries c, it.Key = k → it.Expiration > 0 → it.Expiration < now →
      (Get c k).1 = (some it.Value, true)) ∧
    (mapGet c.items k = none → (Get c k).1 = (none, false)) := by
  have hrec : ∀ it ∈ entries c, it.Key = k → (Get c k).1 = (some it.Value, true) := by
    intro it hit hkey
    obtain ⟨e, he, rfl⟩ := List.mem_map.mp hit
    have hg := Inv_listed_get h he
    rw [hkey] at hg
    rw [Get_hit hg]
  refine ⟨?_, hrec, fun _ it hit hkey _ _ => hrec it hit hkey, fun hg => by rw [Get_miss hg]⟩
  cases hg : mapGet c.items k with
  | none => simp [Get_miss hg]
  | some e => simp [Get_hit hg]

/-- C3, instance: key 3 of `demoTTL` has deadline 52; at clock reading 100 it has
not been swept and `Get` still returns its value. -/
theorem C3_get_result_witness :
    Inv demoTTL ∧ (Get demoTTL 3).1 = (some 30, true) ∧ (Get demoTTL 9).1 = (none, false) := by
  have hinv : Inv demoTTL := by unfold Inv; decide
  obtain ⟨_, _, h3, h4⟩ := C3_get_result demoTTL hinv 3
  obtain ⟨_, _, _, h9⟩ := C3_get_result demoTTL hinv 9
  exact ⟨hinv, h3 100 ⟨3, 30, 12, 52⟩ (by decide) rfl (by decide) (by decide), h9 (by decide)⟩

/-- C4: under the invariant, a `Get(k)` that hits leaves the state as it was
except for the recency list, which becomes the node of `k` followed by the other
nodes in their old order; the new list is a permutation of the old one (same
records, same length), index and capacity are unchanged.  A `Get(k)` that misses
leaves the whole state unchanged. -/
theorem C4_get_frame (c : Cache K V) (h : Inv c) (k : K) :
    (∀ e, mapGet c.items k = some e →
      e ∈ c.evictList ∧ e.Value.Key = k ∧
      (Get c k).2 = { c with
        evictList := e :: c.evictList.filter (fun x => decide (x.Value.Key ≠ k)) } ∧
      entries (Get c k).2 =
        e.Value :: (entries c).filter (fun it => decide (it.Key ≠ k)) ∧
      (entries (Get c k).2).Perm (entries c) ∧
      (Get c k).2.evictList.length = c.evictList.length ∧
      (Get c k).2.items = c.items ∧
      (Get c k).2.capacity = c.capacity) ∧
    (mapGet c.items k = none → (Get c k).2 = c) := by
  refine ⟨?_, fun hg => by rw [Get_miss hg]⟩
  intro e hg
  obtain ⟨hin, hkey⟩ := Inv_indexed_get h hg
  have hstate : (Get c k).2 = { c with
      evictList := e :: c.evictList.filter (fun x => decide (x.Value.Key ≠ k)) } := by
    rw [Get_hit hg, moveToFront_of_mem h.2.2.1 hin, listRemove_eq_filter_key h hg]
  have hlen := listRemove_length h.2.2.1 hin
  rw [listRemove_eq_filter_key h hg] at hlen
  have hperm : (e :: c.evictList.filter (fun x => decide (x.Value.Key ≠ k))).Perm
      c.evictList := by
    have hnd : (e :: c.evictList.filter (fun x => decide (x.Value.Key ≠ k))).Nodup := by
      rw [← listRemove_eq_filter_key h hg, ← moveToFront_of_mem h.2.2.1 hin]
      have := (Inv_Get h k).2.2.1
      rw [Get_hit hg] at this
      exact List.Nodup.of_map _ this
    rw [List.perm_ext_iff_of_nodup hnd (List.Nodup.of_map _ h.2.2.1)]
    intro x
    simp only [List.mem_cons, List.mem_filter, decide_eq_true_eq]
    constructor
    · rintro (rfl | ⟨hx, _⟩)
      · exact hin
      · exact hx
    · intro hx
      by_cases hxk : x.Value.Key = k
      · left
        have hgx := Inv_listed_get h hx
        rw [hxk, hg] at hgx
        cases hgx
        rfl
      · exact Or.inr ⟨hx, hxk⟩
  refine ⟨hin, hkey, hstate, ?_, ?_, ?_, ?_, ?_⟩
  · rw [hstate]
    simp only [entries, List.map_cons, List.filter_map]
    rfl
  · rw [hstate]
    exact hperm.map Element.Value
  · rw [hstate]
    simp only [List.length_cons]
    exact hlen
  · rw [hstate]
  · rw [hstate]

/-- C4, instance: `Get 1` on `demoFull` moves key 1 in front of key 2. -/
theorem C4_get_frame_witness :
    Inv demoFull ∧
    entries (Get demoFull 1).2 = [⟨1, 10, 100, 0⟩, ⟨2, 20, 101, 0⟩] ∧
    (Get demoFull 5).2 = demoFull := by
  have hinv : Inv demoFull := by unfold Inv; decide
  obtain ⟨hhit, _⟩ := C4_get_frame demoFull hinv 1
  obtain ⟨_, hmiss⟩ := C4_get_frame demoFull hinv 5
  obtain ⟨_, _, _, hent, _⟩ := hhit ⟨0, ⟨1, 10, 100, 0⟩⟩ (by decide)
  refine ⟨hinv, ?_, hmiss (by decide)⟩
  rw [hent]
  decide

/-- C5: on a key that is already indexed `Add` and `AddWithTTL` return the state
they were given, for every value and ttl: nothing is overwritten, reordered or
evicted.  Hence, when `Add(k, v)` admits `k` (positive capacity, allocated
index), a following `Add(k, v2)` or `AddWithTTL(k, v2, ttl)` changes nothing and
`Get(k)` returns `(v, true)`. -/
theorem C5_duplicate_noop (c : Cache K V) (k : K) (v v2 : V) (ttl now now2 created : Int) :
    ((mapGet c.items k).isSome →
      Add c k v2 now2 = some c ∧ AddWithTTL c k v2 ttl now2 created = some c) ∧
    (mapGet c.items k = none → 1 ≤ c.capacity → c.itemsNil = false →
      ∃ c1, Add c k v now = some c1 ∧ Add c1 k v2 now2 = some c1 ∧
        AddWithTTL c1 k v2 ttl now2 created = some c1 ∧
        (Get c1 k).1 = (some v, true)) := by
  constructor
  · intro hdup
    simp [Add, AddWithTTL, hdup]
  · intro habs hcap hnil
    obtain ⟨c1, e, hins, hg, _, hval⟩ := insert_lookup hcap hnil
      ({ Key := k, Value := v, Created := now, Expiration := 0 } : Items K V)
    simp only at hg
    refine ⟨c1, (Add_of_absent habs v now).trans hins, ?_, ?_, ?_⟩
    · simp [Add, hg]
    · simp [AddWithTTL, hg]
    · rw [Get_hit hg, hval]

/-- C5, instance: key 2 of the full cache `demoFull` is re-added with another
value and the state does not change; from the empty cache `Add 1 10; Add 1 11;
Get 1` yields `(10, true)`. -/
theorem C5_duplicate_noop_witness :
    (mapGet demoFull.items 2).isSome ∧
    Add demoFull 2 99 500 = some demoFull ∧
    AddWithTTL demoFull 2 99 7 500 501 = some demoFull ∧
    ∃ c1, Add (New 0 0 1 : Cache Nat Nat) 1 10 100 = some c1 ∧ Add c1 1 11 101 = some c1 ∧
      AddWithTTL c1 1 11 7 101 102 = some c1 ∧ (Get c1 1).1 = (some 10, true) :=
  ⟨by decide,
   ((C5_duplicate_noop demoFull 2 0 99 7 0 500 501).1 (by decide)).1,
   ((C5_duplicate_noop demoFull 2 0 99 7 0 500 501).1 (by decide)).2,
   (C5_duplicate_noop (New 0 0 1 : Cache Nat Nat) 1 10 11 7 100 101 102).2
     (by decide) (by decide) (by decide)⟩

/-- C6: under the invariant `Remove(k)` yields the state whose recency list is
the old list without the node of `k` (the other nodes in their old order) and
whose index is the old index without `k`; when `k` is not indexed the state is
unchanged.  `Get(k)` after `Remove(k)` returns `(nil, false)`, and so does
`Get(k)` after `Add(k, v); Remove(k)` (the `Add` succeeding when the capacity is
positive). -/
theorem C6_remove (c : Cache K V) (h : Inv c) (k : K) (v : V) (now : Int) :
    Remove c k = { c with
      evictList := c.evictList.filter (fun x => decide (x.Value.Key ≠ k))
      items := mapDelete c.items k } ∧
    entries (Remove c k) = (entries c).filter (fun it => decide (it.Key ≠ k)) ∧
    (∀ k', mapGet (Remove c k).items k' = if k' = k then none else mapGet c.items k') ∧
    (mapGet c.items k = none → Remove c k = c) ∧
    (Get (Remove c k) k).1 = (none, false) ∧
    (1 ≤ c.capacity →
      ∃ c1, Add c k v now = some c1 ∧ (Get (Remove c1 k) k).1 = (none, false)) := by
  have hstate : Remove c k = { c with
      evictList := c.evictList.filter (fun x => decide (x.Value.Key ≠ k))
      items := mapDelete c.items k } := by
    cases hg : mapGet c.items k with
    | some e => simp only [Remove, hg, listRemove_eq_filter_key h hg]
    | none =>
      have hfil : c.evictList.filter (fun x => decide (x.Value.Key ≠ k)) = c.evictList := by
        apply List.filter_eq_self.mpr
        intro x hx
        have hne : x.Value.Key ≠ k := by
          intro hk
          have hgx := Inv_listed_get h hx
          rw [hk, hg] at hgx
          cases hgx
        simpa using hne
      simp only [Remove, hg, hfil, mapDelete_of_absent hg]
  have hmiss : ∀ cx : Cache K V, (Get (Remove cx k) k).1 = (none, false) := by
    intro cx
    cases hg : mapGet cx.items k with
    | none =>
      have : Remove cx k = cx := by simp only [Remove, hg]
      rw [this, Get_miss hg]
    | some e =>
      have : mapGet (Remove cx k).items k = none := by
        simp only [Remove, hg, mapGet_mapDelete, if_true]
      rw [Get_miss this]
  refine ⟨hstate, ?_, ?_, ?_, hmiss c, ?_⟩
  rotate_left 3
  · intro hcap
    obtain ⟨c1, hadd, _, _⟩ := Inv_Add h hcap k v now
    exact ⟨c1, hadd, hmiss c1⟩
  · rw [hstate]
    simp only [entries, List.filter_map]
    rfl
  · intro k'
    rw [hstate]
    exact mapGet_mapDelete c.items k k'
  · intro hg
    simp only [Remove, hg]

/-- C6, instance: removing key 2 from `demoTTL` leaves keys 3 and 1 in order. -/
theorem C6_remove_witness :
    Inv demoTTL ∧ (1 : Int) ≤ demoTTL.capacity ∧
    entries (Remove demoTTL 2) = [⟨3, 30, 12, 52⟩, ⟨1, 10, 10, 500⟩] ∧
    (Get (Remove demoTTL 2) 2).1 = (none, false) ∧
    (∃ c1, Add demoTTL 4 40 600 = some c1 ∧ (Get (Remove c1 4) 4).1 = (none, false)) := by
  have hinv : Inv demoTTL := by unfold Inv; decide
  obtain ⟨_, hent, _, _, hget, _⟩ := C6_remove demoTTL hinv 2 0 0
  obtain ⟨_, _, _, _, _, hadd⟩ := C6_remove demoTTL hinv 4 40 600
  refine ⟨hinv, by decide, ?_, hget, hadd (by decide)⟩
  rw [hent]
  decide

/-- C7: for an `AddWithTTL(k, v, ttl)` of a key that is not indexed (positive
capacity, allocated index), with `t` the default expiration when `ttl = 0` and
`ttl` otherwise, and `now + t` within the `int64` range when `t > 0`, the call
succeeds and
the record stored for `k` has `Expiration = now + t` when `t > 0` and
`Expiration = 0` when `t ≤ 0`.  A plain `Add` of such a key stores a record with
`Expiration = 0`, whatever `defaultExpiration` is. -/
theorem C7_deadline (c : Cache K V) (hcap : 1 ≤ c.capacity) (hnil : c.itemsNil = false)
    (k : K) (v : V) (ttl now created t : Int) (habs : mapGet c.items k = none)
    (ht : t = if ttl = 0 then c.defaultExpiration else ttl)
    (hrange : 0 < t → -2 ^ 63 ≤ now + t ∧ now + t < 2 ^ 63) :
    (∃ c1 e, AddWithTTL c k v ttl now created = some c1 ∧
      mapGet c1.items k = some e ∧ c1.evictList.head? = some e ∧
      e.Value.Key = k ∧ e.Value.Value = v ∧
      e.Value.Expiration = if t > 0 then now + t else 0) ∧
    (∃ c2 e, Add c k v now = some c2 ∧
      mapGet c2.items k = some e ∧ c2.evictList.head? = some e ∧
      e.Value.Key = k ∧ e.Value.Value = v ∧
      e.Value.Expiration = 0) := by
  constructor
  · obtain ⟨c1, e, hins, hg, hhead, hval⟩ := insert_lookup hcap hnil
      ({ Key := k, Value := v, Created := created,
         Expiration := deadline c.defaultExpiration ttl now } : Items K V)
    refine ⟨c1, e, (AddWithTTL_of_absent habs v ttl now created).trans hins, hg, hhead, ?_⟩
    rw [hval]
    refine ⟨rfl, rfl, ?_⟩
    simp only [deadline, ← ht]
    split
    · rename_i hpos
      exact wrapInt64_of_range (hrange hpos).1 (hrange hpos).2
    · rfl
  · obtain ⟨c2, e, hins, hg, hhead, hval⟩ := insert_lookup hcap hnil
      ({ Key := k, Value := v, Created := now, Expiration := 0 } : Items K V)
    refine ⟨c2, e, (Add_of_absent habs v now).trans hins, hg, hhead, ?_⟩
    rw [hval]
    exact ⟨rfl, rfl, rfl⟩

/-- C7, instance: `demoFull` has no default expiration, so `AddWithTTL 3 30 0`
stores no deadline; with a negative ttl likewise; with ttl 5 at clock 1000 the
deadline is 1005. -/
theorem C7_deadline_witness :
    (∃ c1 e, AddWithTTL demoFull 3 30 5 1000 1001 = some c1 ∧
      mapGet c1.items 3 = some e ∧ c1.evictList.head? = some e ∧
      e.Value.Key = 3 ∧ e.Value.Value = 30 ∧ e.Value.Expiration = 1005) ∧
    (∃ c1 e, AddWithTTL demoFull 3 30 (-5) 1000 1001 = some c1 ∧
      mapGet c1.items 3 = some e ∧ c1.evictList.head? = some e ∧
      e.Value.Key = 3 ∧ e.Value.Value = 30 ∧ e.Value.Expiration = 0) ∧
    (∃ c1 e, AddWithTTL demoTTL 4 40 0 1000 1001 = some c1 ∧
      mapGet c1.items 4 = some e ∧ c1.evictList.head? = some e ∧
      e.Value.Key = 4 ∧ e.Value.Value = 40 ∧ e.Value.Expiration = 1040) :=
  ⟨by simpa using (C7_deadline demoFull (by decide) rfl 3 30 5 1000 1001 5 (by decide)
      (by decide) (by decide)).1,
   by simpa using (C7_deadline demoFull (by decide) rfl 3 30 (-5) 1000 1001 (-5) (by decide)
      (by decide) (by decide)).1,
   by simpa using (C7_deadline demoTTL (by decide) rfl 4 40 0 1000 1001 40 (by decide)
      (by decide) (by decide)).1⟩

/-- C8: under the invariant one sweep cycle at clock reading `now` (the keys of
`expiredKeys` passed to `cleanItems`) succeeds and yields the state whose recency
list and index are the old ones without the entries with `Expiration > 0` and
`Expiration < now`, every other entry staying in place in the same order; the
same state results when the collected keys are handed over in any other
order. -/
theorem C8_sweep (c : Cache K V) (h : Inv c) (now : Int) :
    ∃ c1, sweep c now = some c1 ∧
      cleanItems c (expiredKeys c now) = some c1 ∧
      (∀ keys, keys.Perm (expiredKeys c now) → cleanItems c keys = some c1) ∧
      c1 = { c with
        evictList := c.evictList.filter
          (fun x => decide (¬ (x.Value.Expiration > 0 ∧ x.Value.Expiration < now)))
        items := c.items.filter
          (fun p => decide (¬ (p.2.Value.Expiration > 0 ∧ p.2.Value.Expiration < now))) } ∧
      entries c1 = (entries c).filter
        (fun it => decide (¬ (it.Expiration > 0 ∧ it.Expiration < now))) ∧
      (∀ k, k ∈ expiredKeys c now ↔
        ∃ e, mapGet c.items k = some e ∧ e.Value.Expiration > 0 ∧ e.Value.Expiration < now) := by
  have hf1 : c.evictList.filter (fun x => !isExpired now x.Value) =
      c.evictList.filter
        (fun x => decide (¬ (x.Value.Expiration > 0 ∧ x.Value.Expiration < now))) := by
    apply List.filter_congr
    intro x _
    by_cases hx : x.Value.Expiration > 0 ∧ x.Value.Expiration < now
    · simp [(isExpired_iff now x.Value).mpr hx, hx]
    · have : ¬ isExpired now x.Value = true := fun hh => hx ((isExpired_iff now x.Value).mp hh)
      simp [this, hx]
  have hf2 : c.items.filter (fun p => !isExpired now p.2.Value) =
      c.items.filter
        (fun p => decide (¬ (p.2.Value.Expiration > 0 ∧ p.2.Value.Expiration < now))) := by
    apply List.filter_congr
    intro p _
    by_cases hx : p.2.Value.Expiration > 0 ∧ p.2.Value.Expiration < now
    · simp [(isExpired_iff now p.2.Value).mpr hx, hx]
    · have : ¬ isExpired now p.2.Value = true :=
        fun hh => hx ((isExpired_iff now p.2.Value).mp hh)
      simp [this, hx]
  have hclean : ∀ keys, keys.Perm (expiredKeys c now) → cleanItems c keys = some { c with
      evictList := c.evictList.filter
        (fun x => decide (¬ (x.Value.Expiration > 0 ∧ x.Value.Expiration < now)))
      items := c.items.filter
        (fun p => decide (¬ (p.2.Value.Expiration > 0 ∧ p.2.Value.Expiration < now))) } := by
    intro keys hp
    rw [cleanItems_expired h now hp, hf1, hf2]
  refine ⟨_, ?_, hclean _ (List.Perm.refl _), hclean, rfl, ?_, ?_⟩
  · rw [sweep_eq_cleanItems]
    exact hclean _ (List.Perm.refl _)
  · simp only [entries, List.filter_map]
    rfl
  · intro k
    rw [mem_expiredKeys h.2.1]
    constructor
    · rintro ⟨e, hg, hexp⟩
      exact ⟨e, hg, (isExpired_iff now e.Value).mp hexp⟩
    · rintro ⟨e, hg, hexp⟩
      exact ⟨e, hg, (isExpired_iff now e.Value).mpr hexp⟩

/-- C8, instance: at clock reading 100 the sweep of `demoTTL` removes key 3
(deadline 52) and keeps key 2 (no deadline) and key 1 (deadline 500). -/
theorem C8_sweep_witness :
    Inv demoTTL ∧
    (sweep demoTTL 100).map entries = some [⟨2, 20, 11, 0⟩, ⟨1, 10, 10, 500⟩] := by
  have hinv : Inv demoTTL := by unfold Inv; decide
  obtain ⟨c1, hs, _, _, _, hent, _⟩ := C8_sweep demoTTL hinv 100
  refine ⟨hinv, ?_⟩
  rw [hs, Option.map_some', hent]
  decide

/-- C9: the code at the failing input.  `demoTTL` is reached from `New 40 100 3`
by three client calls; at clock reading 100 `expiredKeys` collects key 3; the
client then removes key 3; `cleanItems` on the collected keys reads a nil element
for key 3 and panics, where `Remove` on the same absent key returns normally. -/
theorem C9_cleanItems_absent_key_panics :
    run (New 40 100 3 : Cache Nat Nat) demoTTLOps = some demoTTL ∧
    expiredKeys demoTTL 100 = [3] ∧
    mapGet (Remove demoTTL 3).items 3 = none ∧
    cleanItems (Remove demoTTL 3) [3] = none ∧
    cleanItems (Remove demoTTL 3) [1, 3] = none ∧
    Remove (Remove demoTTL 3) 3 = Remove demoTTL 3 := by
  decide

/-- C10: the code at the failing interleaving.  At `t1 = 100` `expiredKeys`
collects key 3 of `demoTTL` (deadline 52).  Before the second phase the client
removes key 3 and admits it again, once with `Add` (no deadline) and once with
`AddWithTTL` and ttl 1000 at clock 150 (deadline 1150).  At `t2 = 200`
`cleanItems` on the collected keys removes the new entry in both cases, although
its `Expiration` is 0, respectively not below `t2`. -/
theorem C10_cleanItems_removes_fresh_entry :
    run (New 40 100 3 : Cache Nat Nat) demoTTLOps = some demoTTL ∧
    expiredKeys demoTTL 100 = [3] ∧
    (Add (Remove demoTTL 3) 3 31 150).map
      (fun c => (mapGet c.items 3).map (fun e => e.Value.Expiration)) = some (some 0) ∧
    ((Add (Remove demoTTL 3) 3 31 150).bind (fun c => cleanItems c [3])).map
      (fun c => (mapGet c.items 3).isSome) = some false ∧
    (AddWithTTL (Remove demoTTL 3) 3 31 1000 150 150).map
      (fun c => (mapGet c.items 3).map (fun e => e.Value.Expiration)) = some (some 1150) ∧
    ((AddWithTTL (Remove demoTTL 3) 3 31 1000 150 150).bind (fun c => cleanItems c [3])).map
      (fun c => (mapGet c.items 3).isSome) = some false := by
  decide

/-- C11: in a state reached from `New` with capacity at least 2, after a `Get(k)`
that hits, an `Add` or `AddWithTTL` of a key that is not indexed succeeds and
does not evict `k`: `Get(k)` afterwards still returns the value of `k` with
`true`.  When the list was full, the node evicted is the one at the back after
the `Get`, which is not the node of `k`. -/
theorem C11_recency_protects (d i n : Int) (hn : 2 ≤ n) (ops : List (Op K V))
    (c : Cache K V) (hreach : run (New d i n : Cache K V) ops = some c)
    (k k2 : K) (e : Element K V) (hk : mapGet c.items k = some e)
    (hk2 : mapGet c.items k2 = none) (v : V) (ttl now created : Int) :
    ∃ c2 c3, Add (Get c k).2 k2 v now = some c2 ∧
      AddWithTTL (Get c k).2 k2 v ttl now created = some c3 ∧
      (Get c2 k).1 = (some e.Value.Value, true) ∧
      (Get c3 k).1 = (some e.Value.Value, true) ∧
      ((c.evictList.length : Int) ≥ c.capacity →
        ∃ b, back (Get c k).2.evictList = some b ∧ b.Value.Key ≠ k ∧
          mapGet c2.items b.Value.Key = none ∧ mapGet c3.items b.Value.Key = none ∧
          entries c2 = { Key := k2, Value := v, Created := now, Expiration := 0 } ::
            (entries (Get c k).2).dropLast ∧
          entries c3 = { Key := k2, Value := v, Created := created,
                         Expiration := deadline c.defaultExpiration ttl now } ::
            (entries (Get c k).2).dropLast) := by
  obtain ⟨hinv, hcap⟩ := reachable_Inv (by omega : (1 : Int) ≤ n) hreach
  have hst := Get_hit_state hinv hk
  have habs1 : mapGet (Get c k).2.items k2 = none := by rw [hst]; exact hk2
  have hdef : (Get c k).2.defaultExpiration = c.defaultExpiration := by rw [hst]
  obtain ⟨c2, hc2, hg2, hb2⟩ := get_then_insert hinv (by omega) hk
    ({ Key := k2, Value := v, Created := now, Expiration := 0 } : Items K V) hk2
  obtain ⟨c3, hc3, hg3, hb3⟩ := get_then_insert hinv (by omega) hk
    ({ Key := k2, Value := v, Created := created,
       Expiration := deadline c.defaultExpiration ttl now } : Items K V) hk2
  refine ⟨c2, c3, (Add_of_absent habs1 v now).trans hc2, ?_, hg2, hg3, ?_⟩
  · rw [AddWithTTL_of_absent habs1 v ttl now created, hdef]
    exact hc3
  · intro hfull
    obtain ⟨b, hb, hbk, hm2, he2⟩ := hb2 hfull
    obtain ⟨b', hb', _, hm3, he3⟩ := hb3 hfull
    rw [hb] at hb'
    cases hb'
    exact ⟨b, hb, hbk, hm2, hm3, he2, he3⟩

/-- C11, instance: capacity 3, `Add 1; Add 2; Add 3; Get 1; Add 4` leaves keys
1, 3 and 4 present and key 2 absent. -/
theorem C11_recency_protects_witness :
    run (New 0 0 3 : Cache Nat Nat) demoThreeOps = some demoThree ∧
    ∃ c2, Add (Get demoThree 1).2 4 40 103 = some c2 ∧
      (Get c2 1).1 = (some 10, true) ∧ (Get c2 3).1 = (some 30, true) ∧
      (Get c2 4).1 = (some 40, true) ∧ (Get c2 2).1 = (none, false) := by
  have hreach : run (New 0 0 3 : Cache Nat Nat) demoThreeOps = some demoThree := by decide
  obtain ⟨c2, _, h2, _, hg, _⟩ := C11_recency_protects 0 0 3 (by decide) demoThreeOps
    demoThree hreach 1 4 ⟨0, ⟨1, 10, 100, 0⟩⟩ (by decide) (by decide) 40 0 103 103
  refine ⟨hreach, c2, h2, hg, ?_⟩
  have hval : Add (Get demoThree 1).2 4 40 103 = some
      { items := [(4, ⟨3, ⟨4, 40, 103, 0⟩⟩), (3, ⟨2, ⟨3, 30, 102, 0⟩⟩),
                  (1, ⟨0, ⟨1, 10, 100, 0⟩⟩)]
        itemsNil := false
        capacity := 3
        evictList := [⟨3, ⟨4, 40, 103, 0⟩⟩, ⟨0, ⟨1, 10, 100, 0⟩⟩, ⟨2, ⟨3, 30, 102, 0⟩⟩]
        defaultExpiration := 0
        cleanupInterval := 0
        nextAddr := 4 } := by decide
  rw [hval] at h2
  cases h2
  decide

/-- C12: for a capacity `n ≥ 1` and a list of pairwise different keys, adding
them in order with `Add` to the cache that `New` returns succeeds; the recency
list then holds, front to back, the records of the last `min (length, n)` keys in
reverse insertion order; exactly those keys are indexed; `Get` of each earlier
key returns `(nil, false)` and `Get` of each of the last keys returns its own
value with `true`. -/
theorem C12_fill_in_order (d i n : Int) (hn : 1 ≤ n) (kvs : List (K × V × Int))
    (hnd : (kvs.map (fun p => p.1)).Nodup) :
    ∃ c, run (New d i n : Cache K V) (addOps kvs) = some c ∧
      entries c = ((kvs.drop (kvs.length - n.toNat)).reverse).map addedItem ∧
      (entries c).length = min kvs.length n.toNat ∧
      (∀ k, (mapGet c.items k).isSome ↔
        k ∈ (kvs.drop (kvs.length - n.toNat)).map (fun p => p.1)) ∧
      (∀ p ∈ kvs.take (kvs.length - n.toNat), (Get c p.1).1 = (none, false)) ∧
      (∀ p ∈ kvs.drop (kvs.length - n.toNat), (Get c p.1).1 = (some p.2.1, true)) := by
  obtain ⟨c, hrun, hinv, _, hent0⟩ := fill_spec d i n hn kvs hnd
  have hent : entries c = ((kvs.drop (kvs.length - n.toNat)).reverse).map addedItem := by
    rw [hent0, List.take_reverse, List.length_map, ← List.map_drop, List.map_reverse]
  have hidx : ∀ k, (mapGet c.items k).isSome ↔
      k ∈ (kvs.drop (kvs.length - n.toNat)).map (fun p => p.1) := by
    intro k
    rw [Inv_indexed_iff hinv k, hent]
    simp only [List.map_map, List.map_reverse, List.mem_reverse, List.mem_map,
      Function.comp_apply, addedItem]
  have hsplit : (kvs.map (fun p => p.1)).Nodup := hnd
  rw [← List.take_append_drop (kvs.length - n.toNat) kvs, List.map_append,
    List.nodup_append] at hsplit
  refine ⟨c, hrun, hent, ?_, hidx, ?_, ?_⟩
  · rw [hent]
    simp only [List.length_map, List.length_reverse, List.length_drop]
    omega
  · intro p hp
    have hno : ¬ (mapGet c.items p.1).isSome := by
      rw [hidx p.1]
      intro hh
      exact hsplit.2.2 (List.mem_map.mpr ⟨p, hp, rfl⟩) hh
    have hnone : mapGet c.items p.1 = none := by simpa using hno
    rw [Get_miss hnone]
  · intro p hp
    have hit : addedItem p ∈ entries c := by
      rw [hent]
      exact List.mem_map.mpr ⟨p, List.mem_reverse.mpr hp, rfl⟩
    obtain ⟨e, he, hval⟩ := List.mem_map.mp hit
    have hg := Inv_listed_get hinv he
    rw [hval] at hg
    have hg2 : mapGet c.items p.1 = some e := hg
    rw [Get_hit hg2, hval]
    rfl

/-- C12, instance: capacity 3 and keys 1 to 4: key 1 is gone, keys 2, 3 and 4
return their values. -/
theorem C12_fill_in_order_witness :
    ∃ c, run (New 0 0 3 : Cache Nat Nat) (addOps demoFour) = some c ∧
      (entries c).map Items.Key = [4, 3, 2] ∧
      (Get c 1).1 = (none, false) ∧ (Get c 2).1 = (some 20, true) ∧
      (Get c 3).1 = (some 30, true) ∧ (Get c 4).1 = (some 40, true) := by
  obtain ⟨c, hrun, hent, _, _, hev, hres⟩ :=
    C12_fill_in_order 0 0 3 (by decide) demoFour (by decide)
  refine ⟨c, hrun, ?_, hev (1, 10, 100) (by decide), hres (2, 20, 101) (by decide),
    hres (3, 30, 102) (by decide), hres (4, 40, 103) (by decide)⟩
  rw [hent]
  decide

/-- C13: in a state reached from `New` with capacity at least 1, for a key that
is not indexed, `Add(k, v)` succeeds and `Get(k)` right after it returns
`(v, true)`; likewise `AddWithTTL(k, v, ttl)` for every ttl. -/
theorem C13_insert_then_get (d i n : Int) (hn : 1 ≤ n) (ops : List (Op K V))
    (c : Cache K V) (hreach : run (New d i n : Cache K V) ops = some c)
    (k : K) (v : V) (ttl now created : Int) (habs : mapGet c.items k = none) :
    ∃ c1 c2, Add c k v now = some c1 ∧ (Get c1 k).1 = (some v, true) ∧
      AddWithTTL c k v ttl now created = some c2 ∧ (Get c2 k).1 = (some v, true) := by
  obtain ⟨hinv, hcap⟩ := reachable_Inv hn hreach
  obtain ⟨c1, e1, h1, hg1, _, hv1⟩ := insert_lookup (by omega) hinv.1
    ({ Key := k, Value := v, Created := now, Expiration := 0 } : Items K V)
  obtain ⟨c2, e2, h2, hg2, _, hv2⟩ := insert_lookup (by omega) hinv.1
    ({ Key := k, Value := v, Created := created,
       Expiration := deadline c.defaultExpiration ttl now } : Items K V)
  refine ⟨c1, c2, (Add_of_absent habs v now).trans h1, ?_,
    (AddWithTTL_of_absent habs v ttl now created).trans h2, ?_⟩
  · rw [Get_hit hg1, hv1]
  · rw [Get_hit hg2, hv2]

/-- C13, instance: key 4 is added to the full cache `demoThree`, with `Add` and
with `AddWithTTL` and ttl 7, and looked up. -/
theorem C13_insert_then_get_witness :
    run (New 0 0 3 : Cache Nat Nat) demoThreeOps = some demoThree ∧
    ∃ c1 c2, Add demoThree 4 40 103 = some c1 ∧ (Get c1 4).1 = (some 40, true) ∧
      AddWithTTL demoThree 4 40 7 103 104 = some c2 ∧ (Get c2 4).1 = (some 40, true) :=
  ⟨by decide, C13_insert_then_get 0 0 3 (by decide) demoThreeOps demoThree (by decide)
    4 40 7 103 104 (by decide)⟩

/-- C14, counterexample: in the cache that `New` returns for capacity 0, `Clear`
leaves an empty list, and the `Add` of a new key that follows panics (the
eviction branch is taken on the empty list) instead of succeeding. -/
theorem C14_add_after_clear_panics_at_capacity_zero :
    (Clear (New 0 0 0 : Cache Nat Nat)).evictList = [] ∧
    (Clear (New 0 0 0 : Cache Nat Nat)).items = [] ∧
    Add (Clear (New 0 0 0 : Cache Nat Nat)) 1 10 100 = none := by
  decide

/-- C14, amended: for every cache state `Clear` yields an empty recency list and
an empty index and keeps capacity, default expiration and cleanup interval;
`GetAll` right after it is empty and `Get` of every key returns `(nil, false)`;
and when the capacity is at least 1 an `Add` of a key after it succeeds and
yields the list holding that one record, so nothing is evicted. -/
theorem C14_clear (c : Cache K V) (k : K) (v : V) (now : Int) :
    (Clear c).evictList = [] ∧ (Clear c).items = [] ∧
    (Clear c).capacity = c.capacity ∧
    (Clear c).defaultExpiration = c.defaultExpiration ∧
    (Clear c).cleanupInterval = c.cleanupInterval ∧
    GetAll (Clear c) = [] ∧
    (∀ k2, (Get (Clear c) k2).1 = (none, false)) ∧
    (1 ≤ c.capacity →
      ∃ c1, Add (Clear c) k v now = some c1 ∧
        entries c1 = [{ Key := k, Value := v, Created := now, Expiration := 0 }] ∧
        (∀ k2, (mapGet c1.items k2).isSome ↔ k2 = k)) := by
  refine ⟨rfl, rfl, rfl, rfl, rfl, rfl, fun k2 => rfl, ?_⟩
  intro hcap
  have hinv : Inv (Clear c) := Inv_Clear c (by omega)
  have habs : mapGet (Clear c).items k = none := rfl
  obtain ⟨c1, hins, _, _, hl, hm⟩ := insert_spec hinv hcap
    ({ Key := k, Value := v, Created := now, Expiration := 0 } : Items K V) habs
  have hlt : ¬ (((Clear c).evictList.length : Int) ≥ (Clear c).capacity) := by
    simp only [Clear, List.length_nil]
    push_cast
    omega
  refine ⟨c1, (Add_of_absent habs v now).trans hins, ?_, ?_⟩
  · rw [entries, hl, if_neg hlt]
    rfl
  · intro k2
    rw [hm k2]
    by_cases hk : k2 = k
    · simp [hk]
    · have : mapGet (Clear c).items k2 = none := rfl
      simp [hk, hlt, this]

/-- C14, amended, instance: `demoFull` is cleared and key 7 added. -/
theorem C14_clear_witness :
    (1 : Int) ≤ demoFull.capacity ∧
    ∃ c1, Add (Clear demoFull) 7 70 200 = some c1 ∧
      entries c1 = [{ Key := 7, Value := 70, Created := 200, Expiration := 0 }] ∧
      (∀ k2, (mapGet c1.items k2).isSome ↔ k2 = 7) :=
  ⟨by decide, (C14_clear demoFull 7 70 200).2.2.2.2.2.2.2 (by decide)⟩

/-- C15: under the invariant `GetAll` returns a map that, under every key, holds
the record of the node indexed under that key and nothing under a key that is
not indexed; its keys are the keys of the index, each once; every record it
holds carries its own key and is a record of the recency list; and the call
leaves the state as it is. -/
theorem C15_getAll (c : Cache K V) (h : Inv c) :
    (∀ k, snapGet (GetAll c) k = (mapGet c.items k).map Element.Value) ∧
    (∀ k, (snapGet (GetAll c) k).isSome ↔ (mapGet c.items k).isSome) ∧
    ((GetAll c).map Prod.fst).Perm (c.items.map Prod.fst) ∧
    ((GetAll c).map Prod.fst).Nodup ∧
    (∀ k it, snapGet (GetAll c) k = some it → it.Key = k ∧ it ∈ entries c) ∧
    step c Op.getAll = some c := by
  have hget := snapGet_GetAll (c := c) h.2.1
  refine ⟨hget, ?_, ?_, ?_, ?_, rfl⟩
  · intro k
    rw [hget k]
    cases mapGet c.items k <;> simp
  · rw [GetAll_keys h.2.1]
    exact List.reverse_perm _
  · rw [GetAll_keys h.2.1]
    exact List.nodup_reverse.mpr h.2.1
  · intro k it hk
    rw [hget k] at hk
    cases hg : mapGet c.items k with
    | none => rw [hg] at hk; cases hk
    | some e =>
      rw [hg] at hk
      simp only [Option.map_some', Option.some.injEq] at hk
      subst hk
      obtain ⟨hin, hkey⟩ := Inv_indexed_get h hg
      exact ⟨hkey, List.mem_map.mpr ⟨e, hin, rfl⟩⟩

/-- C15, instance: the snapshot of `demoTTL`. -/
theorem C15_getAll_witness :
    Inv demoTTL ∧
    snapGet (GetAll demoTTL) 3 = some ⟨3, 30, 12, 52⟩ ∧
    snapGet (GetAll demoTTL) 2 = some ⟨2, 20, 11, 0⟩ ∧
    snapGet (GetAll demoTTL) 9 = none ∧
    ((GetAll demoTTL).map Prod.fst).Perm [3, 2, 1] := by
  have hinv : Inv demoTTL := by unfold Inv; decide
  obtain ⟨hget, _, hperm, _⟩ := C15_getAll demoTTL hinv
  refine ⟨hinv, ?_, ?_, ?_, hperm⟩
  · rw [hget 3]; decide
  · rw [hget 2]; decide
  · rw [hget 9]; decide

/-- C16, counterexample: `demoDeadline` has default expiration 0 and holds key 1
with deadline 52.  `AddWithTTL(1, 99, 0)` and `Add(1, 99)` both return the state
unchanged, so the entry for key 1 afterwards has `Expiration = 52`, not 0, and
the sweep at clock reading 100 removes it. -/
theorem C16_indexed_key_keeps_deadline :
    run (New 0 100 3 : Cache Nat Nat) [.addWithTTL 1 10 42 10 10] = some demoDeadline ∧
    demoDeadline.defaultExpiration = 0 ∧
    AddWithTTL demoDeadline 1 99 0 60 60 = some demoDeadline ∧
    Add demoDeadline 1 99 60 = some demoDeadline ∧
    (mapGet demoDeadline.items 1).map (fun e => e.Value.Expiration) = some 52 ∧
    (sweep demoDeadline 100).map (fun c => (mapGet c.items 1).isSome) = some false := by
  decide

/-- C16, amended: in every state whose default expiration is 0,
`AddWithTTL(k, v, 0)` yields exactly what `Add(k, v)` yields (the clock reading
stored in `Created` being the same); and when the invariant holds, the capacity
is at least 1 and `k` is not indexed, the record admitted for `k` has
`Expiration = 0` and a sweep at any clock reading leaves it indexed and in the
list. -/
theorem C16_ttl_zero_is_add (c : Cache K V) (hdef : c.defaultExpiration = 0) (k : K) (v : V)
    (now created : Int) :
    AddWithTTL c k v 0 now created = Add c k v created ∧
    (Inv c → 1 ≤ c.capacity → mapGet c.items k = none →
      ∃ c1 e, AddWithTTL c k v 0 now created = some c1 ∧
        mapGet c1.items k = some e ∧ c1.evictList.head? = some e ∧
        e.Value.Value = v ∧ e.Value.Expiration = 0 ∧
        ∀ later : Int, ∃ c2, sweep c1 later = some c2 ∧
          mapGet c2.items k = some e ∧ e ∈ c2.evictList) := by
  have heq : AddWithTTL c k v 0 now created = Add c k v created := by
    simp [AddWithTTL, Add, deadline, hdef]
  refine ⟨heq, ?_⟩
  intro hinv hcap habs
  obtain ⟨c1, hadd, hinv1, _⟩ := Inv_Add hinv hcap k v created
  obtain ⟨c1', e, hins, hg, hhead, hval⟩ := insert_lookup hcap hinv.1
    ({ Key := k, Value := v, Created := created, Expiration := 0 } : Items K V)
  have hadd2 := (Add_of_absent habs v created).trans hins
  rw [hadd] at hadd2
  cases hadd2
  have hexp : e.Value.Expiration = 0 := by rw [hval]
  refine ⟨c1, e, heq.trans hadd, hg, hhead, by rw [hval], hexp, ?_⟩
  intro later
  exact sweep_keeps_immune hinv1 hg hexp later

/-- C16, amended, instance: key 4 is added with ttl 0 to `demoThree`, whose
default expiration is 0. -/
theorem C16_ttl_zero_is_add_witness :
    demoThree.defaultExpiration = 0 ∧
    AddWithTTL demoThree 4 40 0 103 104 = Add demoThree 4 40 104 ∧
    ∃ c1 e, AddWithTTL demoThree 4 40 0 103 104 = some c1 ∧
      mapGet c1.items 4 = some e ∧ c1.evictList.head? = some e ∧
      e.Value.Value = 40 ∧ e.Value.Expiration = 0 ∧
      ∀ later : Int, ∃ c2, sweep c1 later = some c2 ∧
        mapGet c2.items 4 = some e ∧ e ∈ c2.evictList :=
  ⟨rfl, (C16_ttl_zero_is_add demoThree rfl 4 40 103 104).1,
   (C16_ttl_zero_is_add demoThree rfl 4 40 103 104).2 (by unfold Inv; decide) (by decide)
     (by decide)⟩

/-- C17: with default expiration 5 s, cleanup interval 10 s and capacity 3, after
the five calls of `Add` and `AddWithTTL(6, ok, 0)` issued at clock reading `t0`
(a reading that is not negative and for which `t0 + 5 s` fits `int64`), `GetAll`
has exactly the keys 4, 5 and 6, keys 4 and 5 with `Expiration = 0` and key 6
with `Expiration = t0 + 5 s`; after one sweep at a clock reading later than
`t0 + 5 s`, `GetAll` has exactly the keys 4 and 5.  The same holds when, as in
`main`, `Get(3)`, `Get(4)` and `GetAll()` are called before the sweep. -/
theorem C17_demonstration (t1 t2 t3 t4 t5 t0 t0c ts : Int) (h0 : 0 ≤ t0)
    (hr : t0 + 5 * second < 2 ^ 63) (hs : ts > t0 + 5 * second) :
    ∃ c, run (New (5 * second) (10 * second) 3 : Cache Nat String)
        (mainOps t1 t2 t3 t4 t5 t0 t0c) = some c ∧
      ((GetAll c).map Prod.fst).Perm [4, 5, 6] ∧
      (snapGet (GetAll c) 4).map Items.Expiration = some 0 ∧
      (snapGet (GetAll c) 5).map Items.Expiration = some 0 ∧
      (snapGet (GetAll c) 6).map Items.Expiration = some (t0 + 5 * second) ∧
      (∃ c2, sweep c ts = some c2 ∧ ((GetAll c2).map Prod.fst).Perm [4, 5]) ∧
      (∃ c1 c2, run c mainLookups = some c1 ∧
        ((GetAll c1).map Prod.fst).Perm [4, 5, 6] ∧
        sweep c1 ts = some c2 ∧ ((GetAll c2).map Prod.fst).Perm [4, 5]) := by
  have hd := main_deadline h0 hr
  have hpos : t0 + 5 * second > 0 := by
    have : (5 : Int) * second = 5000000000 := by decide
    omega
  refine ⟨mainState t4 t5 t0c (t0 + 5 * second), ?_, List.Perm.refl _, rfl, rfl, rfl,
    ⟨_, main_sweep t4 t5 t0c _ ts hpos hs, List.Perm.refl _⟩,
    ⟨_, _, main_lookups t4 t5 t0c _, List.Perm.refl _,
      main_lookups_sweep t4 t5 t0c _ ts hpos hs, List.Perm.refl _⟩⟩
  rw [main_run, hd]

/-- C17, instance: `t0 = 1000`, the sweep at the tick at `t0 + 10 s`. -/
theorem C17_demonstration_witness :
    ∃ c, run (New (5 * second) (10 * second) 3 : Cache Nat String)
        (mainOps 100 200 300 400 500 1000 1001) = some c ∧
      ((GetAll c).map Prod.fst).Perm [4, 5, 6] ∧
      (snapGet (GetAll c) 4).map Items.Expiration = some 0 ∧
      (snapGet (GetAll c) 5).map Items.Expiration = some 0 ∧
      (snapGet (GetAll c) 6).map Items.Expiration = some (1000 + 5 * second) ∧
      (∃ c2, sweep c (1000 + 10 * second) = some c2 ∧
        ((GetAll c2).map Prod.fst).Perm [4, 5]) ∧
      (∃ c1 c2, run c mainLookups = some c1 ∧
        ((GetAll c1).map Prod.fst).Perm [4, 5, 6] ∧
        sweep c1 (1000 + 10 * second) = some c2 ∧ ((GetAll c2).map Prod.fst).Perm [4, 5]) :=
  C17_demonstration 100 200 300 400 500 1000 1001 (1000 + 10 * second) (by decide)
    (by decide) (by decide)

/-- C18: `Cap()` returns the capacity given to `New` after every sequence of
operations: in every state a run from `New d i n` reaches, and such a state is
reached by every run when `n ≥ 1`. -/
theorem C18_cap_invariant (d i n : Int) (ops : List (Op K V)) :
    Cap (New d i n : Cache K V) = n ∧
    (∀ c, run (New d i n : Cache K V) ops = some c → Cap c = n) ∧
    (1 ≤ n → ∃ c, run (New d i n : Cache K V) ops = some c ∧ Cap c = n) := by
  refine ⟨rfl, fun c h => (run_fields ops h).1, fun hn => ?_⟩
  obtain ⟨c, hrun, _, hcap⟩ :=
    Inv_run ops (Inv_New d i n (by omega) : Inv (New d i n : Cache K V)) hn
  exact ⟨c, hrun, hcap⟩

/-- C18, instance: the run `demoOps` from `New 40 100 3`. -/
theorem C18_cap_invariant_witness :
    (1 : Int) ≤ 3 ∧ ∃ c, run (New 40 100 3 : Cache Nat Nat) demoOps = some c ∧ Cap c = 3 :=
  ⟨by decide, (C18_cap_invariant 40 100 3 demoOps).2.2 (by decide)⟩

/-- C19: under the invariant, for a key that is not indexed, `Add` and
`AddWithTTL` panic exactly when the recency list is empty and the capacity is not
positive; with capacity at least 1 no insertion panics, and with a capacity that
is not positive the first insertion into the cache that `New` returns panics. -/
theorem C19_insert_fault_iff (c : Cache K V) (h : Inv c) (k : K) (v : V)
    (ttl now created : Int) (habs : mapGet c.items k = none) :
    (Add c k v now = none ↔ c.evictList = [] ∧ c.capacity ≤ 0) ∧
    (AddWithTTL c k v ttl now created = none ↔ c.evictList = [] ∧ c.capacity ≤ 0) ∧
    (1 ≤ c.capacity → ∀ k2 : K,
      (Add c k2 v now).isSome ∧ (AddWithTTL c k2 v ttl now created).isSome) ∧
    (∀ d i n : Int, n ≤ 0 →
      Add (New d i n : Cache K V) k v now = none ∧
      AddWithTTL (New d i n : Cache K V) k v ttl now created = none) := by
  refine ⟨?_, ?_, ?_, ?_⟩
  · rw [Add_of_absent habs v now]
    exact insert_eq_none_iff h.1 _
  · rw [AddWithTTL_of_absent habs v ttl now created]
    exact insert_eq_none_iff h.1 _
  · intro hcap k2
    obtain ⟨c1, h1, _, _⟩ := Inv_Add h hcap k2 v now
    obtain ⟨c2, h2, _, _⟩ := Inv_AddWithTTL h hcap k2 v ttl now created
    simp [h1, h2]
  · intro d i n hn
    have hnew : mapGet (New d i n : Cache K V).items k = none := rfl
    rw [Add_of_absent hnew v now, AddWithTTL_of_absent hnew v ttl now created]
    exact ⟨(insert_eq_none_iff rfl _).mpr ⟨rfl, hn⟩, (insert_eq_none_iff rfl _).mpr ⟨rfl, hn⟩⟩

/-- C19, instance: the first `Add` into a cache of capacity 0 panics; an `Add`
into the full cache `demoFull` of capacity 2 does not. -/
theorem C19_insert_fault_iff_witness :
    Inv (New 0 0 0 : Cache Nat Nat) ∧
    Add (New 0 0 0 : Cache Nat Nat) 1 10 100 = none ∧
    Inv demoFull ∧ (Add demoFull 3 30 102).isSome := by
  have hinv0 : Inv (New 0 0 0 : Cache Nat Nat) := by unfold Inv; decide
  have hinv : Inv demoFull := by unfold Inv; decide
  exact ⟨hinv0,
    (C19_insert_fault_iff (New 0 0 0 : Cache Nat Nat) hinv0 1 10 0 100 100 rfl).1.mpr
      ⟨rfl, by decide⟩,
    hinv,
    ((C19_insert_fault_iff demoFull hinv 3 30 0 102 102 (by decide)).2.2.1 (by decide) 3).1⟩

/-- C20: in every state reached from `New` by a sequence of `Add`, `AddWithTTL`,
`Get`, `Remove`, `Clear`, `GetAll` and sweeps the index is not nil (`Clear` in
particular leaves an allocated index), so an iteration of the loop of `GC` run in
that state, at any clock reading, does not take the `return` branch; with a
capacity of at least 1 the iteration is the sweep of that state and the loop
goes on. -/
theorem C20_gc_exit_unreachable (d i n : Int) (ops : List (Op K V)) (c : Cache K V)
    (hreach : run (New d i n : Cache K V) ops = some c) (now : Int) :
    c.itemsNil = false ∧ (Clear c).itemsNil = false ∧
    GCTick c now ≠ GCOutcome.returned ∧
    (1 ≤ n → ∃ c1, sweep c now = some c1 ∧ GCTick c now = GCOutcome.continues c1 ∧
      c1.itemsNil = false) := by
  have hnil : c.itemsNil = false := (run_fields ops hreach).2.1 rfl
  refine ⟨hnil, rfl, ?_, ?_⟩
  · unfold GCTick
    rw [hnil]
    cases sweep c now <;> simp
  · intro hn
    obtain ⟨hinv, _⟩ := reachable_Inv hn hreach
    obtain ⟨c1, hs, hinv1, _⟩ := Inv_sweep hinv now
    exact ⟨c1, hs, by simp [GCTick, hnil, hs], hinv1.1⟩

/-- C20, instance: `demoTTL`, reached by `demoTTLOps`, at the tick at clock
reading 100. -/
theorem C20_gc_exit_unreachable_witness :
    run (New 40 100 3 : Cache Nat Nat) demoTTLOps = some demoTTL ∧
    demoTTL.itemsNil = false ∧ GCTick demoTTL 100 ≠ GCOutcome.returned :=
  ⟨by decide,
   (C20_gc_exit_unreachable 40 100 3 demoTTLOps demoTTL (by decide) 100).1,
   (C20_gc_exit_unreachable 40 100 3 demoTTLOps demoTTL (by decide) 100).2.2.1⟩

end Claims

end LRU
